import Mathlib

/-!
Verification development for the `nanny` repository maintenance CLI.

The core under verification is the deep-merge and drift-audit engine:

* `mergeDeep`        — the recursive merge used by the package-assembly command
                       (`generate-package`), which skips the reserved keys
                       `__proto__`, `constructor`, `prototype`;
* `deepMerge`        — the recursive merge used by the settings-merge command
                       (`merge-vscode-config`);
* `filterPackageJson` — the ordered key projection of the root manifest;
* `replaceVersions`  — the dependency version synchronizer of `update-package`;
* `findDuplicateKeys` — the duplicate-key audit of `update-package`;
* `stableStringify`  — the canonical serialization used for the wireit audit;
* the check-mode idempotency comparison of `merge-vscode-config`.

JSON-like values are embedded as an inductive type whose objects are
insertion-ordered association lists with (in well-formed values) unique keys,
matching the key ordering semantics of JavaScript objects.  JSON numbers are
embedded as integers: none of the verified operations computes with numbers,
they only copy and compare them.  Property read `o[k]` is embedded as
`lookupKey`, property write `o[k] = v` as `setKey` (update in place when the
key exists, append otherwise), both over the own keys of the object.
-/

namespace Nanny

/-- A JSON-like value (`JsonObject` in the source): null, boolean, number,
string, array, or object.  Objects carry their fields in insertion order. -/
inductive JsonValue where
  | null
  | bool (b : Bool)
  | num (n : Int)
  | str (s : String)
  | arr (elems : List JsonValue)
  | obj (fields : List (String × JsonValue))

/-- The JS type `Record<string, unknown>` of parsed JSONC roots. -/
abbrev JsonObject := List (String × JsonValue)

/-- Property read `o[key]` on the own keys of an object (first matching key). -/
def lookupKey {α : Type} : List (String × α) → String → Option α
  | [], _ => none
  | (k, v) :: rest, key => if k = key then some v else lookupKey rest key

/-- Property write `o[key] = val`: update in place if the key exists
(JS objects keep the original key position), append at the end otherwise. -/
def setKey {α : Type} : List (String × α) → String → α → List (String × α)
  | [], key, val => [(key, val)]
  | (k, v) :: rest, key, val =>
    if k = key then (key, val) :: rest else (k, v) :: setKey rest key val

/-- The own keys of an embedded object, in insertion order
(`Object.keys(o)`). -/
def keysOf {α : Type} (l : List (String × α)) : List String := l.map Prod.fst

/-- The denylist of `mergeDeep` in `generate-package`:
`key === "__proto__" || key === "constructor" || key === "prototype"`. -/
def isDangerousKey (k : String) : Bool :=
  k = "__proto__" || k = "constructor" || k = "prototype"

/-- `mergeDeep(target, source)` from the `generate-package` command: iterate
over the keys of `source` in order; skip the three reserved keys; when both
values are plain (non-array, non-null) objects merge them in place, otherwise
assign the source value.  The in-place mutation `mergeDeep(tv, sv)` of the
nested target object is embedded by re-seating the merged child at its key,
which `setKey` does without moving the key. -/
def mergeDeep : JsonObject → JsonObject → JsonObject
  | target, [] => target
  | target, (key, sv) :: rest =>
    if isDangerousKey key then
      mergeDeep target rest
    else
      match lookupKey target key, sv with
      | some (.obj tv), .obj svf =>
        mergeDeep (setKey target key (.obj (mergeDeep tv svf))) rest
      | _, _ => mergeDeep (setKey target key sv) rest
termination_by _ source => sizeOf source
decreasing_by all_goals simp_wf <;> omega

/-- `deepMerge(base, override)` from the `merge-vscode-config` command: start
from a copy of `base` (`{ ...base }`, the identity in this pure embedding) and
iterate over the entries of `override`; when both values are plain objects
recurse, otherwise assign the override value.  Note: unlike `mergeDeep`, the
source has no reserved-key denylist here. -/
def deepMerge : JsonObject → JsonObject → JsonObject
  | out, [] => out
  | out, (k, v) :: rest =>
    match lookupKey out k, v with
    | some (.obj bv), .obj sv =>
      deepMerge (setKey out k (.obj (deepMerge bv sv))) rest
    | _, _ => deepMerge (setKey out k v) rest
termination_by _ override => sizeOf override
decreasing_by all_goals simp_wf <;> omega

/-- Loop body of `filterPackageJson`: `for (const key of keys) if (key in pkg)
filtered[key] = pkg[key]`, with `filtered` as the accumulator. -/
def filterGo (pkg : JsonObject) : List String → JsonObject → JsonObject
  | [], filtered => filtered
  | key :: rest, filtered =>
    match lookupKey pkg key with
    | some v => filterGo pkg rest (setKey filtered key v)
    | none => filterGo pkg rest filtered

/-- `filterPackageJson(pkg, keys)` from `generate-package`: project `pkg`
through the ordered key list, starting from the empty object. -/
def filterPackageJson (pkg : JsonObject) (keys : List String) : JsonObject :=
  filterGo pkg keys []

/-- A dependency map (`Record<string, string>`), insertion ordered. -/
abbrev DepMap := List (String × String)

/-- Inner loop of `replaceVersions` over the snapshot `Object.keys(t)` of one
dependency section: `const newVersion = s[dep]; if (newVersion && t[dep] !==
newVersion) { t[dep] = newVersion; updated = true; }`.  The truthiness test
`newVersion &&` skips both an absent entry and an empty version string. -/
def rvGo (s : DepMap) : List String → DepMap → Bool → DepMap × Bool
  | [], t, changed => (t, changed)
  | dep :: rest, t, changed =>
    match lookupKey s dep with
    | some nv =>
      if nv ≠ "" ∧ lookupKey t dep ≠ some nv then
        rvGo s rest (setKey t dep nv) true
      else
        rvGo s rest t changed
    | none => rvGo s rest t changed

/-- One dependency section of `replaceVersions` (the body run for
`"dependencies"` and `"devDependencies"`), iterating over `Object.keys(t)`. -/
def replaceVersionsSection (t s : DepMap) : DepMap × Bool :=
  rvGo s (keysOf t) t false

/-- The optional `dependencies` / `devDependencies` sections of a package
manifest, as consumed by `replaceVersions`. -/
structure DepSections where
  dependencies : Option DepMap
  devDependencies : Option DepMap

/-- One `section` iteration of `replaceVersions`: `if (!t || !s) continue`. -/
def rvSection : Option DepMap → Option DepMap → Option DepMap × Bool
  | some t, some s => ((replaceVersionsSection t s).1, (replaceVersionsSection t s).2)
  | t, _ => (t, false)

/-- `replaceVersions(target, source)` from `update-package`: run the section
loop on `dependencies` and `devDependencies`, accumulating the `updated`
flag. -/
def replaceVersions (target source : DepSections) : DepSections × Bool :=
  (⟨(rvSection target.dependencies source.dependencies).1,
    (rvSection target.devDependencies source.devDependencies).1⟩,
   (rvSection target.dependencies source.dependencies).2
     || (rvSection target.devDependencies source.devDependencies).2)

/-- `seen[key]` update of `findDuplicateKeys`:
`if (!seen[key]) seen[key] = []; seen[key].push(file)`. -/
def addKeySeen (seen : List (String × List String)) (key file : String) :
    List (String × List String) :=
  match lookupKey seen key with
  | some fs => setKey seen key (fs ++ [file])
  | none => seen ++ [(key, [file])]

/-- Inner loop of `findDuplicateKeys` over `Object.keys(map)` of one file. -/
def addMapKeys (file : String) : List String → List (String × List String) →
    List (String × List String)
  | [], seen => seen
  | k :: rest, seen => addMapKeys file rest (addKeySeen seen k file)

/-- Outer loop of `findDuplicateKeys` over the entries `(file, map)`,
iterating over `Object.keys(map)` for each. -/
def buildSeen {α : Type} : List (String × List (String × α)) →
    List (String × List String) → List (String × List String)
  | [], seen => seen
  | (file, map) :: rest, seen =>
    buildSeen rest (addMapKeys file (keysOf map) seen)

/-- `findDuplicateKeys(entries)` from `update-package`: build the
`seen : Record<string, string[]>` table and keep the keys that occur in more
than one file, each with its contributing origins in encounter order. -/
def findDuplicateKeys {α : Type} (entries : List (String × List (String × α))) :
    List (String × List String) :=
  (buildSeen entries []).filter (fun p => 1 < p.2.length)

/-- Specification-side description of the origins of a key, used only to state
the duplicate-key claim: the files of the entries whose map contains the key,
in encounter order. -/
def originsSpec {α : Type} (entries : List (String × List (String × α)))
    (key : String) : List String :=
  (entries.filter (fun e => key ∈ keysOf e.2)).map Prod.fst

section AssocLemmas

variable {α : Type}

@[simp] theorem keysOf_nil : keysOf ([] : List (String × α)) = [] := rfl

@[simp] theorem keysOf_cons (k : String) (v : α) (rest : List (String × α)) :
    keysOf ((k, v) :: rest) = k :: keysOf rest := rfl

@[simp] theorem keysOf_append (l1 l2 : List (String × α)) :
    keysOf (l1 ++ l2) = keysOf l1 ++ keysOf l2 := by
  simp [keysOf]

@[simp] theorem lookupKey_setKey_self (l : List (String × α)) (k : String) (v : α) :
    lookupKey (setKey l k v) k = some v := by
  induction l with
  | nil => simp [setKey, lookupKey]
  | cons p rest ih =>
    obtain ⟨k0, v0⟩ := p
    by_cases h : k0 = k <;> simp [setKey, lookupKey, h, ih]

theorem lookupKey_setKey_ne (l : List (String × α)) (k : String) (v : α)
    (k2 : String) (h : k2 ≠ k) : lookupKey (setKey l k v) k2 = lookupKey l k2 := by
  have hne : ¬(k = k2) := fun hh => h hh.symm
  induction l with
  | nil => simp [setKey, lookupKey, hne]
  | cons p rest ih =>
    obtain ⟨k0, v0⟩ := p
    by_cases h0 : k0 = k
    · subst h0
      simp [setKey, lookupKey, hne]
    · by_cases h2 : k0 = k2 <;> simp [setKey, lookupKey, h0, h2, h, ih]

theorem lookupKey_eq_none_iff (l : List (String × α)) (k : String) :
    lookupKey l k = none ↔ k ∉ keysOf l := by
  induction l with
  | nil => simp [lookupKey]
  | cons p rest ih =>
    obtain ⟨k0, v0⟩ := p
    by_cases h : k0 = k
    · subst h
      simp [lookupKey]
    · have h2 : ¬(k = k0) := fun hh => h hh.symm
      rw [keysOf_cons, List.mem_cons]
      simp [lookupKey, h, h2, ih]

theorem lookupKey_isSome_iff (l : List (String × α)) (k : String) :
    (lookupKey l k).isSome = true ↔ k ∈ keysOf l := by
  simp [Option.isSome_iff_ne_none, Ne, lookupKey_eq_none_iff]

theorem map_fst_setKey_of_mem (l : List (String × α)) (k : String) (v : α)
    (h : k ∈ keysOf l) : keysOf (setKey l k v) = keysOf l := by
  induction l with
  | nil => simp at h
  | cons p rest ih =>
    obtain ⟨k0, v0⟩ := p
    by_cases h0 : k0 = k
    · simp [setKey, h0]
    · rw [keysOf_cons, List.mem_cons] at h
      rcases h with h | h
      · exact absurd h.symm h0
      · simp [setKey, h0, ih h]

theorem map_fst_setKey_of_not_mem (l : List (String × α)) (k : String) (v : α)
    (h : k ∉ keysOf l) :
    keysOf (setKey l k v) = keysOf l ++ [k] := by
  induction l with
  | nil => simp [setKey, keysOf]
  | cons p rest ih =>
    obtain ⟨k0, v0⟩ := p
    rw [keysOf_cons, List.mem_cons] at h
    push_neg at h
    have h0 : ¬(k0 = k) := fun hh => h.1 hh.symm
    simp [setKey, h0, ih h.2]

/-- `lookupKey` only depends on the entry list up to permutation when the keys
are unique. -/
theorem lookupKey_perm (l1 l2 : List (String × α)) (hp : l1.Perm l2)
    (hnd : (keysOf l1).Nodup) (k : String) :
    lookupKey l1 k = lookupKey l2 k := by
  induction hp with
  | nil => rfl
  | cons p rest ih =>
    obtain ⟨k0, v0⟩ := p
    rw [keysOf_cons] at hnd
    by_cases h : k0 = k <;> simp [lookupKey, h]
    exact ih (List.Nodup.of_cons hnd)
  | swap x y rest =>
    obtain ⟨kx, vx⟩ := x
    obtain ⟨ky, vy⟩ := y
    by_cases hy : ky = k <;> by_cases hx : kx = k <;>
      simp [lookupKey, hy, hx]
    subst hy
    subst hx
    simp [keysOf] at hnd
  | trans hp1 hp2 ih1 ih2 =>
    rw [ih1 hnd]
    exact ih2 ((hp1.map Prod.fst).nodup_iff.mp hnd)

end AssocLemmas

/-- C9: merging an empty source object into (a clone of) any JSON-like object
`A` is the identity, for both merge implementations: `mergeDeep(A, {}) = A`
and `deepMerge(A, {}) = A` (the pure embedding returns `A` itself, which in
particular is structurally equal to `A`). -/
theorem merge_empty_source_identity (A : JsonObject) :
    mergeDeep A [] = A ∧ deepMerge A [] = A := by
  constructor <;> simp [mergeDeep, deepMerge]

/-- C1: the two merge implementations diverge on the reserved keys.
`mergeDeep` (package assembly) skips a `__proto__` source key, but `deepMerge`
(settings merge) has no denylist at all and copies the `__proto__` key from
the source into the merged result, so the result's key set gains the reserved
key.  Evaluation at the failing input `target = {}`,
`source = {"__proto__": 1}`. -/
theorem dangerous_key_guard_divergence :
    mergeDeep [] [("__proto__", .num 1)] = ([] : JsonObject)
    ∧ deepMerge [] [("__proto__", .num 1)] = [("__proto__", .num 1)]
    ∧ keysOf (deepMerge [] [("__proto__", .num 1)]) = ["__proto__"] := by
  refine ⟨?_, ?_, ?_⟩ <;>
    simp [mergeDeep, deepMerge, isDangerousKey, lookupKey, setKey, keysOf]

section VersionSync

@[simp] theorem rvGo_nil (s : DepMap) (t : DepMap) (ch : Bool) :
    rvGo s [] t ch = (t, ch) := rfl

theorem rvGo_cons_none (s : DepMap) (dep : String) (rest : List String)
    (t : DepMap) (ch : Bool) (h : lookupKey s dep = none) :
    rvGo s (dep :: rest) t ch = rvGo s rest t ch := by
  simp only [rvGo]
  rw [h]

theorem rvGo_cons_some (s : DepMap) (dep : String) (rest : List String)
    (t : DepMap) (ch : Bool) (nv : String) (h : lookupKey s dep = some nv) :
    rvGo s (dep :: rest) t ch =
      if nv ≠ "" ∧ lookupKey t dep ≠ some nv then
        rvGo s rest (setKey t dep nv) true
      else rvGo s rest t ch := by
  simp only [rvGo]
  rw [h]

/-- Once the `updated` flag is set, it stays set. -/
theorem rvGo_changed_mono (s : DepMap) (l : List String) (t : DepMap) :
    (rvGo s l t true).2 = true := by
  induction l generalizing t with
  | nil => simp
  | cons dep rest ih =>
    cases hs : lookupKey s dep with
    | none => rw [rvGo_cons_none s dep rest t true hs]; exact ih t
    | some nv =>
      rw [rvGo_cons_some s dep rest t true nv hs]
      by_cases hc : nv ≠ "" ∧ lookupKey t dep ≠ some nv
      · rw [if_pos hc]; exact ih _
      · rw [if_neg hc]; exact ih t

/-- Keys that are not in the iteration list are never touched. -/
theorem rvGo_lookup_not_mem (s : DepMap) (l : List String) (t : DepMap)
    (ch : Bool) (dep : String) (h : dep ∉ l) :
    lookupKey (rvGo s l t ch).1 dep = lookupKey t dep := by
  induction l generalizing t ch with
  | nil => simp
  | cons d rest ih =>
    rw [List.mem_cons] at h
    push_neg at h
    cases hs : lookupKey s d with
    | none => rw [rvGo_cons_none s d rest t ch hs]; exact ih t ch h.2
    | some nv =>
      rw [rvGo_cons_some s d rest t ch nv hs]
      by_cases hc : nv ≠ "" ∧ lookupKey t d ≠ some nv
      · rw [if_pos hc, ih _ _ h.2, lookupKey_setKey_ne t d nv dep h.1]
      · rw [if_neg hc]; exact ih t ch h.2

/-- The loop never adds or removes keys when it only iterates existing keys. -/
theorem rvGo_keys (s : DepMap) (l : List String) :
    ∀ (t : DepMap) (ch : Bool), (∀ d ∈ l, d ∈ keysOf t) →
    keysOf (rvGo s l t ch).1 = keysOf t := by
  induction l with
  | nil => intro t ch _; simp
  | cons d rest ih =>
    intro t ch hl
    have hd : d ∈ keysOf t := hl d (by simp)
    have hrest : ∀ x ∈ rest, x ∈ keysOf t :=
      fun x hx => hl x (List.mem_cons_of_mem _ hx)
    cases hs : lookupKey s d with
    | none => rw [rvGo_cons_none s d rest t ch hs]; exact ih t ch hrest
    | some nv =>
      rw [rvGo_cons_some s d rest t ch nv hs]
      by_cases hc : nv ≠ "" ∧ lookupKey t d ≠ some nv
      · rw [if_pos hc]
        have hkeys := map_fst_setKey_of_mem t d nv hd
        have hstep := ih (setKey t d nv) true
          (fun x hx => by rw [hkeys]; exact hrest x hx)
        rw [hstep, hkeys]
      · rw [if_neg hc]; exact ih t ch hrest

/-- A target key present in the source with a differing, non-empty version is
overwritten with the source version and sets the flag. -/
theorem rvGo_hit (s : DepMap) (dep v : String) (l : List String) :
    ∀ (t : DepMap) (ch : Bool), l.Nodup → dep ∈ l →
    lookupKey s dep = some v → v ≠ "" → lookupKey t dep ≠ some v →
    lookupKey (rvGo s l t ch).1 dep = some v ∧ (rvGo s l t ch).2 = true := by
  induction l with
  | nil => intro t ch _ hmem; simp at hmem
  | cons d rest ih =>
    intro t ch hnd hmem hs hne ht
    rw [List.nodup_cons] at hnd
    by_cases hd : d = dep
    · subst hd
      rw [rvGo_cons_some s d rest t ch v hs]
      rw [if_pos (show v ≠ "" ∧ lookupKey t d ≠ some v from ⟨hne, ht⟩)]
      refine ⟨?_, rvGo_changed_mono s rest _⟩
      rw [rvGo_lookup_not_mem s rest _ true d hnd.1]
      exact lookupKey_setKey_self t d v
    · have hmem2 : dep ∈ rest := by
        rcases List.mem_cons.mp hmem with h | h
        · exact absurd h.symm hd
        · exact h
      cases hs2 : lookupKey s d with
      | none => rw [rvGo_cons_none s d rest t ch hs2]
                exact ih t ch hnd.2 hmem2 hs hne ht
      | some nv =>
        rw [rvGo_cons_some s d rest t ch nv hs2]
        by_cases hc : nv ≠ "" ∧ lookupKey t d ≠ some nv
        · rw [if_pos hc]
          apply ih _ _ hnd.2 hmem2 hs hne
          rw [lookupKey_setKey_ne t d nv dep (fun hh => hd hh.symm)]
          exact ht
        · rw [if_neg hc]
          exact ih t ch hnd.2 hmem2 hs hne ht

/-- Any key whose final value differs from its initial value was an existing
key whose source version exists and differs. -/
theorem rvGo_changes_only (s : DepMap) (l : List String) :
    ∀ (t : DepMap) (ch : Bool), (∀ d ∈ l, d ∈ keysOf t) → ∀ dep,
    lookupKey (rvGo s l t ch).1 dep ≠ lookupKey t dep →
    ∃ v w, lookupKey s dep = some v ∧ lookupKey t dep = some w ∧ v ≠ w := by
  induction l with
  | nil => intro t ch _ dep hne; simp at hne
  | cons d rest ih =>
    intro t ch hl dep hne
    have hd : d ∈ keysOf t := hl d (by simp)
    have hrest : ∀ x ∈ rest, x ∈ keysOf t :=
      fun x hx => hl x (List.mem_cons_of_mem _ hx)
    revert hne
    cases hs : lookupKey s d with
    | none => rw [rvGo_cons_none s d rest t ch hs]; exact ih t ch hrest dep
    | some nv =>
      rw [rvGo_cons_some s d rest t ch nv hs]
      by_cases hc : nv ≠ "" ∧ lookupKey t d ≠ some nv
      · rw [if_pos hc]
        intro hne
        have hkeys : keysOf (setKey t d nv) = keysOf t :=
          map_fst_setKey_of_mem t d nv hd
        by_cases hdep : dep = d
        · subst hdep
          obtain ⟨w, hw⟩ : ∃ w, lookupKey t dep = some w := by
            have := (lookupKey_isSome_iff t dep).mpr hd
            cases hlt : lookupKey t dep with
            | none => rw [hlt] at this; simp at this
            | some w => exact ⟨w, rfl⟩
          refine ⟨nv, w, hs, hw, fun hvw => ?_⟩
          exact hc.2 (by rw [hw, hvw])
        · have heq : lookupKey (setKey t d nv) dep = lookupKey t dep :=
            lookupKey_setKey_ne t d nv dep hdep
          obtain ⟨v, w, h1, h2, h3⟩ :=
            ih (setKey t d nv) true
              (fun x hx => by rw [hkeys]; exact hrest x hx) dep
              (by rw [heq]; exact hne)
          exact ⟨v, w, h1, heq ▸ h2, h3⟩
      · rw [if_neg hc]
        exact ih t ch hrest dep

/-- When no existing key has a differing source version, the loop is the
identity and reports `changed = false`. -/
theorem rvGo_no_change (s : DepMap) (l : List String) :
    ∀ (t : DepMap) (ch : Bool), (∀ d ∈ l, d ∈ keysOf t) →
    (∀ dep v, dep ∈ keysOf t → lookupKey s dep = some v →
      lookupKey t dep = some v) →
    rvGo s l t ch = (t, ch) := by
  induction l with
  | nil => intro t ch _ _; simp
  | cons d rest ih =>
    intro t ch hl hsync
    have hd : d ∈ keysOf t := hl d (by simp)
    cases hs : lookupKey s d with
    | none =>
      rw [rvGo_cons_none s d rest t ch hs]
      exact ih t ch (fun x hx => hl x (List.mem_cons_of_mem _ hx)) hsync
    | some nv =>
      have heq : lookupKey t d = some nv := hsync d nv hd hs
      rw [rvGo_cons_some s d rest t ch nv hs,
        if_neg (show ¬(nv ≠ "" ∧ lookupKey t d ≠ some nv) from
          fun hcon => hcon.2 heq)]
      exact ih t ch (fun x hx => hl x (List.mem_cons_of_mem _ hx)) hsync

end VersionSync

/-- C2 counterexample: the claim fails when the differing source version is
the empty string.  With target `{"lib-a": "1.0.0"}` and source
`{"lib-a": ""}` the source version differs from the target version, yet the
truthiness test `newVersion &&` skips the entry: nothing is overwritten and
the changed flag is `false`. -/
theorem replaceVersions_empty_version_counterexample :
    ("" : String) ≠ "1.0.0"
    ∧ replaceVersionsSection [("lib-a", "1.0.0")] [("lib-a", "")]
        = ([("lib-a", "1.0.0")], false) :=
  ⟨by decide, by decide⟩

/-- C2 (amended): for every target and source dependency map and every
dependency name that is a key of the target map, if the source map has the
same name with a different *non-empty* version string, `replaceVersions`
overwrites the target entry with the source version and the returned changed
flag is `true`. -/
theorem replaceVersions_overwrites_differing (t s : DepMap) (dep v : String)
    (hnd : (keysOf t).Nodup) (hmem : dep ∈ keysOf t)
    (hs : lookupKey s dep = some v) (hv : v ≠ "")
    (hdiff : lookupKey t dep ≠ some v) :
    lookupKey (replaceVersionsSection t s).1 dep = some v
    ∧ (replaceVersionsSection t s).2 = true :=
  rvGo_hit s dep v (keysOf t) t false hnd hmem hs hv hdiff

/-- C2 witness: the spec's version-sync scenario, target
`{"lib-a":"1.0.0","lib-b":"2.0.0"}` and source
`{"lib-a":"1.1.0","lib-c":"9.9.9"}`. -/
theorem replaceVersions_overwrites_witness :
    lookupKey (replaceVersionsSection [("lib-a", "1.0.0"), ("lib-b", "2.0.0")]
      [("lib-a", "1.1.0"), ("lib-c", "9.9.9")]).1 "lib-a" = some "1.1.0"
    ∧ (replaceVersionsSection [("lib-a", "1.0.0"), ("lib-b", "2.0.0")]
      [("lib-a", "1.1.0"), ("lib-c", "9.9.9")]).2 = true :=
  replaceVersions_overwrites_differing _ _ "lib-a" "1.1.0" (by decide)
    (by decide) (by decide) (by decide) (by decide)

/-- C6: the version synchronizer never adds a dependency name absent from the
target (the key set is preserved), changes only entries whose name exists in
both maps with differing version strings, and returns `(t, false)` when no
entry differs. -/
theorem replaceVersions_conservative (t s : DepMap) :
    keysOf (replaceVersionsSection t s).1 = keysOf t
    ∧ (∀ dep, lookupKey (replaceVersionsSection t s).1 dep ≠ lookupKey t dep →
        ∃ v w, lookupKey s dep = some v ∧ lookupKey t dep = some w ∧ v ≠ w)
    ∧ ((∀ dep v, dep ∈ keysOf t → lookupKey s dep = some v →
          lookupKey t dep = some v) →
        replaceVersionsSection t s = (t, false)) := by
  refine ⟨?_, ?_, ?_⟩
  · exact rvGo_keys s (keysOf t) t false (fun d hd => hd)
  · exact rvGo_changes_only s (keysOf t) t false (fun d hd => hd)
  · intro hsync
    exact rvGo_no_change s (keysOf t) t false (fun d hd => hd) hsync

/-- C6 witness: with target `{"lib-a":"1.0.0","lib-b":"2.0.0"}` and source
`{"lib-c":"9.9.9"}` (no shared names, so no differing entries) the key set is
preserved and the call returns the target unchanged with `changed = false`. -/
theorem replaceVersions_conservative_witness :
    keysOf (replaceVersionsSection [("lib-a", "1.0.0"), ("lib-b", "2.0.0")]
        [("lib-c", "9.9.9")]).1 = ["lib-a", "lib-b"]
    ∧ replaceVersionsSection [("lib-a", "1.0.0"), ("lib-b", "2.0.0")]
        [("lib-c", "9.9.9")]
      = ([("lib-a", "1.0.0"), ("lib-b", "2.0.0")], false) := by
  have h := replaceVersions_conservative
    [("lib-a", "1.0.0"), ("lib-b", "2.0.0")] [("lib-c", "9.9.9")]
  refine ⟨by rw [h.1]; decide, h.2.2 ?_⟩
  intro dep v hdep hs
  simp [keysOf] at hdep
  rcases hdep with h1 | h1 <;> subst h1 <;> simp [lookupKey] at hs

section Projection

@[simp] theorem filterGo_nil (pkg : JsonObject) (acc : JsonObject) :
    filterGo pkg [] acc = acc := rfl

theorem filterGo_cons_some (pkg : JsonObject) (key : String) (rest : List String)
    (acc : JsonObject) (v : JsonValue) (h : lookupKey pkg key = some v) :
    filterGo pkg (key :: rest) acc = filterGo pkg rest (setKey acc key v) := by
  simp only [filterGo]
  rw [h]

theorem filterGo_cons_none (pkg : JsonObject) (key : String) (rest : List String)
    (acc : JsonObject) (h : lookupKey pkg key = none) :
    filterGo pkg (key :: rest) acc = filterGo pkg rest acc := by
  simp only [filterGo]
  rw [h]

/-- Full characterization of the projection loop relative to its
accumulator. -/
theorem filterGo_spec (pkg : JsonObject) (keys : List String) :
    ∀ acc : JsonObject, keys.Nodup → (∀ k ∈ keys, lookupKey acc k = none) →
    keysOf (filterGo pkg keys acc)
        = keysOf acc ++ keys.filter (fun k => (lookupKey pkg k).isSome)
    ∧ (∀ k, k ∈ keys → lookupKey (filterGo pkg keys acc) k = lookupKey pkg k)
    ∧ (∀ k, k ∉ keys → lookupKey (filterGo pkg keys acc) k = lookupKey acc k) := by
  induction keys with
  | nil => intro acc _ _; simp
  | cons key rest ih =>
    intro acc hnd hacc
    rw [List.nodup_cons] at hnd
    cases hp : lookupKey pkg key with
    | none =>
      have h1 := ih acc hnd.2 (fun k hk => hacc k (List.mem_cons_of_mem _ hk))
      rw [filterGo_cons_none pkg key rest acc hp]
      refine ⟨?_, ?_, ?_⟩
      · rw [h1.1, List.filter_cons]
        simp [hp]
      · intro k hk
        rcases List.mem_cons.mp hk with h | h
        · subst h
          rw [h1.2.2 k hnd.1, hacc k (by simp), hp]
        · exact h1.2.1 k h
      · intro k hk
        rw [List.mem_cons] at hk
        push_neg at hk
        exact h1.2.2 k hk.2
    | some v =>
      have hsetacc : ∀ k ∈ rest, lookupKey (setKey acc key v) k = none := by
        intro k hk
        rw [lookupKey_setKey_ne acc key v k (fun hh => hnd.1 (hh ▸ hk))]
        exact hacc k (List.mem_cons_of_mem _ hk)
      have h1 := ih (setKey acc key v) hnd.2 hsetacc
      rw [filterGo_cons_some pkg key rest acc v hp]
      have hknot : key ∉ keysOf acc := by
        rw [← lookupKey_eq_none_iff]
        exact hacc key (by simp)
      refine ⟨?_, ?_, ?_⟩
      · rw [h1.1, map_fst_setKey_of_not_mem acc key v hknot, List.filter_cons]
        simp [hp]
      · intro k hk
        rcases List.mem_cons.mp hk with h | h
        · subst h
          rw [h1.2.2 k hnd.1, lookupKey_setKey_self, hp]
        · exact h1.2.1 k h
      · intro k hk
        rw [List.mem_cons] at hk
        push_neg at hk
        rw [h1.2.2 k hk.2, lookupKey_setKey_ne acc key v k hk.1]

end Projection

/-- C7: for every source object and every duplicate-free ordered key list, the
projection `filterPackageJson` emits exactly the keys of the list that are
present in the source, in key-list order (so its key set is the intersection
of the key list with the source's key set, keys absent from the source are
omitted), and each emitted key maps to the source's value unchanged. -/
theorem filterPackageJson_projection (pkg : JsonObject) (keys : List String)
    (hnd : keys.Nodup) :
    keysOf (filterPackageJson pkg keys)
        = keys.filter (fun k => (lookupKey pkg k).isSome)
    ∧ ∀ k, k ∈ keys →
        lookupKey (filterPackageJson pkg keys) k = lookupKey pkg k := by
  have h := filterGo_spec pkg keys [] hnd (fun _ _ => rfl)
  exact ⟨by simpa using h.1, h.2.1⟩

/-- C7 witness: the spec's package-assembly scenario, projecting
`{"name":"x","version":"1.0.0","notes":"tmp","scripts":{"a":"1"}}` through
`["name","version","license"]`: only `name` and `version` survive, in
key-list order, with unchanged values. -/
theorem filterPackageJson_projection_witness :
    keysOf (filterPackageJson
        [("name", .str "x"), ("version", .str "1.0.0"), ("notes", .str "tmp"),
          ("scripts", .obj [("a", .str "1")])]
        ["name", "version", "license"]) = ["name", "version"]
    ∧ lookupKey (filterPackageJson
        [("name", .str "x"), ("version", .str "1.0.0"), ("notes", .str "tmp"),
          ("scripts", .obj [("a", .str "1")])]
        ["name", "version", "license"]) "version" = some (.str "1.0.0") := by
  have h := filterPackageJson_projection
    [("name", .str "x"), ("version", .str "1.0.0"), ("notes", .str "tmp"),
      ("scripts", .obj [("a", .str "1")])]
    ["name", "version", "license"] (by decide)
  constructor
  · rw [h.1]
    rfl
  · rw [h.2 "version" (by decide)]
    rfl

section DuplicateKeys

theorem lookupKey_append {α : Type} (l1 l2 : List (String × α)) (k : String) :
    lookupKey (l1 ++ l2) k =
      match lookupKey l1 k with
      | some v => some v
      | none => lookupKey l2 k := by
  induction l1 with
  | nil => simp [lookupKey]
  | cons p rest ih =>
    obtain ⟨k0, v0⟩ := p
    by_cases h : k0 = k <;> simp [lookupKey, h, ih]

theorem addKeySeen_mem (seen : List (String × List String)) (key file : String)
    (fs : List String) (h : lookupKey seen key = some fs) :
    addKeySeen seen key file = setKey seen key (fs ++ [file]) := by
  simp only [addKeySeen]
  rw [h]

theorem addKeySeen_new (seen : List (String × List String)) (key file : String)
    (h : lookupKey seen key = none) :
    addKeySeen seen key file = seen ++ [(key, [file])] := by
  simp only [addKeySeen]
  rw [h]

theorem lookupKey_addKeySeen (seen : List (String × List String))
    (key file k : String) :
    lookupKey (addKeySeen seen key file) k =
      if k = key then some ((lookupKey seen key).getD [] ++ [file])
      else lookupKey seen k := by
  cases hl : lookupKey seen key with
  | some fs =>
    rw [addKeySeen_mem seen key file fs hl]
    by_cases h : k = key
    · subst h
      simp
    · rw [lookupKey_setKey_ne seen key _ k h, if_neg h]
  | none =>
    rw [addKeySeen_new seen key file hl, lookupKey_append]
    by_cases h : k = key
    · subst h
      rw [hl]
      simp [lookupKey]
    · rw [if_neg h]
      have h2 : ¬(key = k) := fun hh => h hh.symm
      cases hk : lookupKey seen k <;> simp [lookupKey, h2]

theorem keysOf_addKeySeen (seen : List (String × List String))
    (key file : String) :
    keysOf (addKeySeen seen key file) =
      if key ∈ keysOf seen then keysOf seen else keysOf seen ++ [key] := by
  cases hl : lookupKey seen key with
  | some fs =>
    have hmem : key ∈ keysOf seen := by
      rw [← lookupKey_isSome_iff, hl]
      rfl
    rw [addKeySeen_mem seen key file fs hl,
      map_fst_setKey_of_mem seen key _ hmem, if_pos hmem]
  | none =>
    have hmem : key ∉ keysOf seen := (lookupKey_eq_none_iff seen key).mp hl
    rw [addKeySeen_new seen key file hl, if_neg hmem]
    simp [keysOf]

theorem nodup_keys_addKeySeen (seen : List (String × List String))
    (key file : String) (h : (keysOf seen).Nodup) :
    (keysOf (addKeySeen seen key file)).Nodup := by
  rw [keysOf_addKeySeen]
  by_cases hmem : key ∈ keysOf seen
  · rw [if_pos hmem]; exact h
  · rw [if_neg hmem]
    simp [List.nodup_append, h, hmem]

theorem lookupKey_addMapKeys (file : String) (ks : List String) :
    ∀ (seen : List (String × List String)) (k : String), ks.Nodup →
    lookupKey (addMapKeys file ks seen) k =
      if k ∈ ks then some ((lookupKey seen k).getD [] ++ [file])
      else lookupKey seen k := by
  induction ks with
  | nil => intro seen k _; simp [addMapKeys]
  | cons k0 rest ih =>
    intro seen k hnd
    rw [List.nodup_cons] at hnd
    simp only [addMapKeys]
    rw [ih (addKeySeen seen k0 file) k hnd.2]
    by_cases h0 : k = k0
    · subst h0
      have hnotr : k ∉ rest := hnd.1
      rw [if_neg hnotr, lookupKey_addKeySeen, if_pos rfl,
        if_pos (List.mem_cons_self k rest)]
    · rw [lookupKey_addKeySeen, if_neg h0]
      by_cases hr : k ∈ rest
      · rw [if_pos hr, if_pos (List.mem_cons_of_mem _ hr)]
      · rw [if_neg hr, if_neg (by simp [h0, hr])]

theorem nodup_keys_addMapKeys (file : String) (ks : List String) :
    ∀ seen : List (String × List String), (keysOf seen).Nodup →
    (keysOf (addMapKeys file ks seen)).Nodup := by
  induction ks with
  | nil => intro seen h; exact h
  | cons k0 rest ih =>
    intro seen h
    simp only [addMapKeys]
    exact ih _ (nodup_keys_addKeySeen seen k0 file h)

theorem originsSpec_cons {α : Type} (file : String) (map : List (String × α))
    (rest : List (String × List (String × α))) (k : String) :
    originsSpec ((file, map) :: rest) k =
      (if k ∈ keysOf map then [file] else []) ++ originsSpec rest k := by
  simp only [originsSpec, List.filter_cons, keysOf]
  by_cases hm : k ∈ List.map Prod.fst map <;> simp [hm]

theorem lookupKey_buildSeen {α : Type}
    (entries : List (String × List (String × α))) :
    ∀ (seen : List (String × List String)) (k : String),
    (∀ e ∈ entries, (keysOf e.2).Nodup) →
    lookupKey (buildSeen entries seen) k =
      match lookupKey seen k with
      | some fs => some (fs ++ originsSpec entries k)
      | none =>
        if originsSpec entries k = [] then none else some (originsSpec entries k) := by
  induction entries with
  | nil =>
    intro seen k _
    cases hl : lookupKey seen k <;> simp [buildSeen, originsSpec, hl]
  | cons e rest ih =>
    intro seen k hnd
    obtain ⟨file, map⟩ := e
    have hmap : (keysOf map).Nodup := hnd (file, map) (by simp)
    have hrest : ∀ e ∈ rest, (keysOf e.2).Nodup :=
      fun e he => hnd e (List.mem_cons_of_mem _ he)
    simp only [buildSeen]
    rw [ih (addMapKeys file (keysOf map) seen) k hrest,
      lookupKey_addMapKeys file (keysOf map) seen k (by exact hmap),
      originsSpec_cons file map rest k]
    by_cases hm : k ∈ keysOf map
    · rw [if_pos hm]
      cases hl : lookupKey seen k <;> simp [hl, hm]
    · rw [if_neg hm]
      cases hl : lookupKey seen k <;> simp [hl, hm]

theorem nodup_keys_buildSeen {α : Type}
    (entries : List (String × List (String × α))) :
    ∀ seen : List (String × List String), (keysOf seen).Nodup →
    (keysOf (buildSeen entries seen)).Nodup := by
  induction entries with
  | nil => intro seen h; exact h
  | cons e rest ih =>
    intro seen h
    obtain ⟨file, map⟩ := e
    simp only [buildSeen]
    exact ih _ (nodup_keys_addMapKeys file (keysOf map) seen h)

theorem lookupKey_filter_long (l : List (String × List String)) (k : String)
    (hnd : (keysOf l).Nodup) :
    lookupKey (l.filter (fun p => 1 < p.2.length)) k =
      match lookupKey l k with
      | some fs => if 1 < fs.length then some fs else none
      | none => none := by
  induction l with
  | nil => simp [lookupKey]
  | cons p rest ih =>
    obtain ⟨k0, fs0⟩ := p
    rw [keysOf_cons, List.nodup_cons] at hnd
    by_cases h : k0 = k
    · subst h
      have hrest : lookupKey rest k0 = none :=
        (lookupKey_eq_none_iff rest k0).mpr hnd.1
      by_cases hlen : 1 < fs0.length
      · simp [List.filter_cons, hlen, lookupKey]
      · simp [List.filter_cons, hlen, lookupKey, ih hnd.2, hrest]
    · by_cases hlen : 1 < fs0.length <;>
        simp [List.filter_cons, hlen, lookupKey, h, ih hnd.2]

end DuplicateKeys

/-- C8: for every ordered list of File-Scoped Maps (each with duplicate-free
keys, as JS objects are), the duplicate-key report has duplicate-free entry
keys and maps a key to exactly the origins of the maps containing it, in
encounter order, precisely when it appears in at least two maps; keys in zero
or one map get no entry. -/
theorem findDuplicateKeys_spec {α : Type}
    (entries : List (String × List (String × α)))
    (hnd : ∀ e ∈ entries, (keysOf e.2).Nodup) :
    (keysOf (findDuplicateKeys entries)).Nodup
    ∧ ∀ key, lookupKey (findDuplicateKeys entries) key =
        if 2 ≤ (originsSpec entries key).length then
          some (originsSpec entries key)
        else none := by
  have hnodup : (keysOf (buildSeen entries [])).Nodup :=
    nodup_keys_buildSeen entries [] (by simp)
  constructor
  · exact ((List.filter_sublist _).map Prod.fst).nodup hnodup
  · intro key
    have hchar := lookupKey_buildSeen entries [] key hnd
    rw [show lookupKey ([] : List (String × List String)) key = none from rfl] at hchar
    simp only at hchar
    rw [show findDuplicateKeys entries
        = (buildSeen entries []).filter (fun p => 1 < p.2.length) from rfl,
      lookupKey_filter_long _ key hnodup, hchar]
    by_cases hempty : originsSpec entries key = []
    · simp [hempty]
    · rw [if_neg hempty]
      simp only
      by_cases hlen : 1 < (originsSpec entries key).length
      · rw [if_pos hlen, if_pos (by omega)]
      · rw [if_neg hlen, if_neg (by omega)]

/-- C8 witness: the spec's duplicate-key scenario, three File-Scoped Maps
where `"build"` appears in exactly the first and third: the report lists
exactly those two origins, in encounter order. -/
theorem findDuplicateKeys_spec_witness :
    (keysOf (findDuplicateKeys [("f1", [("build", "a")]), ("f2", [("test", "b")]),
      ("f3", [("build", "c")])])).Nodup
    ∧ lookupKey (findDuplicateKeys [("f1", [("build", "a")]), ("f2", [("test", "b")]),
      ("f3", [("build", "c")])]) "build"
      = if 2 ≤ (originsSpec [("f1", [("build", "a")]), ("f2", [("test", "b")]),
          ("f3", [("build", "c")])] "build").length then
          some (originsSpec [("f1", [("build", "a")]), ("f2", [("test", "b")]),
            ("f3", [("build", "c")])] "build")
        else none := by
  have h := findDuplicateKeys_spec
    [("f1", [("build", "a")]), ("f2", [("test", "b")]), ("f3", [("build", "c")])]
    (by decide)
  exact ⟨h.1, h.2 "build"⟩

section MergeCharacterization

/-- The source's recursion condition `isPlainObject(tv) && isPlainObject(sv)`
for a target slot and a source value: both are non-array, non-null objects. -/
def bothObjects : Option JsonValue → JsonValue → Bool
  | some (.obj _), .obj _ => true
  | _, _ => false

/-- The per-key outcome the merge claims describe: recurse (with merge
function `f`) when both sides are plain objects, otherwise the source value
replaces the target value wholesale. -/
def mergeResultAt (f : JsonObject → JsonObject → JsonObject) :
    Option JsonValue → JsonValue → Option JsonValue
  | some (.obj tv), .obj svf => some (.obj (f tv svf))
  | _, sv => some sv

theorem bothObjects_eq_true (o : Option JsonValue) (v : JsonValue) :
    bothObjects o v = true ↔
      ∃ tv svf, o = some (.obj tv) ∧ v = .obj svf := by
  cases o with
  | none => cases v <;> simp [bothObjects]
  | some tv => cases tv <;> cases v <;> simp [bothObjects]

theorem mergeResultAt_objobj (f : JsonObject → JsonObject → JsonObject)
    (tv svf : JsonObject) :
    mergeResultAt f (some (.obj tv)) (.obj svf) = some (.obj (f tv svf)) := rfl

theorem mergeResultAt_other (f : JsonObject → JsonObject → JsonObject)
    (o : Option JsonValue) (v : JsonValue) (hb : bothObjects o v = false) :
    mergeResultAt f o v = some v := by
  cases o with
  | none => cases v <;> rfl
  | some tv =>
    cases tv <;> cases v <;> try rfl
    simp [bothObjects] at hb

@[simp] theorem mergeDeep_nil (target : JsonObject) :
    mergeDeep target [] = target := by
  simp [mergeDeep]

theorem mergeDeep_cons_dangerous (target : JsonObject) (key : String)
    (sv : JsonValue) (rest : JsonObject) (h : isDangerousKey key = true) :
    mergeDeep target ((key, sv) :: rest) = mergeDeep target rest := by
  rw [mergeDeep.eq_def]
  dsimp only []
  rw [if_pos h]

theorem mergeDeep_cons_objobj (target : JsonObject) (key : String)
    (tv svf : JsonObject) (rest : JsonObject) (hg : isDangerousKey key = false)
    (htk : lookupKey target key = some (.obj tv)) :
    mergeDeep target ((key, .obj svf) :: rest)
      = mergeDeep (setKey target key (.obj (mergeDeep tv svf))) rest := by
  rw [mergeDeep.eq_def]
  dsimp only []
  rw [if_neg (by simp [hg]), htk]

theorem mergeDeep_cons_other (target : JsonObject) (key : String)
    (sv : JsonValue) (rest : JsonObject) (hg : isDangerousKey key = false)
    (hb : bothObjects (lookupKey target key) sv = false) :
    mergeDeep target ((key, sv) :: rest)
      = mergeDeep (setKey target key sv) rest := by
  rw [mergeDeep.eq_def]
  dsimp only []
  rw [if_neg (by simp [hg])]
  cases htk : lookupKey target key with
  | none => cases sv <;> rfl
  | some tv =>
    rw [htk] at hb
    cases tv <;> cases sv <;> first
      | rfl
      | simp [bothObjects] at hb

@[simp] theorem deepMerge_nil (out : JsonObject) : deepMerge out [] = out := by
  simp [deepMerge]

theorem deepMerge_cons_objobj (out : JsonObject) (k : String)
    (bv sv : JsonObject) (rest : JsonObject)
    (hbk : lookupKey out k = some (.obj bv)) :
    deepMerge out ((k, .obj sv) :: rest)
      = deepMerge (setKey out k (.obj (deepMerge bv sv))) rest := by
  rw [deepMerge.eq_def]
  dsimp only []
  rw [hbk]

theorem deepMerge_cons_other (out : JsonObject) (k : String) (v : JsonValue)
    (rest : JsonObject) (hb : bothObjects (lookupKey out k) v = false) :
    deepMerge out ((k, v) :: rest) = deepMerge (setKey out k v) rest := by
  rw [deepMerge.eq_def]
  dsimp only []
  cases hbk : lookupKey out k with
  | none => cases v <;> rfl
  | some bv =>
    rw [hbk] at hb
    cases bv <;> cases v <;> first
      | rfl
      | simp [bothObjects] at hb

/-- Keys that do not occur in the source are never touched by `mergeDeep`. -/
theorem lookupKey_mergeDeep_not_mem (s : JsonObject) :
    ∀ (t : JsonObject) (k : String), k ∉ keysOf s →
    lookupKey (mergeDeep t s) k = lookupKey t k := by
  induction s with
  | nil => intro t k _; simp
  | cons p rest ih =>
    intro t k hmem
    obtain ⟨key, sv0⟩ := p
    rw [keysOf_cons, List.mem_cons] at hmem
    push_neg at hmem
    cases hdg : isDangerousKey key with
    | true =>
      rw [mergeDeep_cons_dangerous t key sv0 rest hdg]
      exact ih t k hmem.2
    | false =>
      cases hb : bothObjects (lookupKey t key) sv0 with
      | true =>
        obtain ⟨tv, svf, htk, hsvf⟩ := (bothObjects_eq_true _ _).mp hb
        subst hsvf
        rw [mergeDeep_cons_objobj t key tv svf rest hdg htk, ih _ k hmem.2,
          lookupKey_setKey_ne t key _ k hmem.1]
      | false =>
        rw [mergeDeep_cons_other t key sv0 rest hdg hb, ih _ k hmem.2,
          lookupKey_setKey_ne t key sv0 k hmem.1]

/-- Keys that do not occur in the override are never touched by
`deepMerge`. -/
theorem lookupKey_deepMerge_not_mem (s : JsonObject) :
    ∀ (t : JsonObject) (k : String), k ∉ keysOf s →
    lookupKey (deepMerge t s) k = lookupKey t k := by
  induction s with
  | nil => intro t k _; simp
  | cons p rest ih =>
    intro t k hmem
    obtain ⟨key, sv0⟩ := p
    rw [keysOf_cons, List.mem_cons] at hmem
    push_neg at hmem
    cases hb : bothObjects (lookupKey t key) sv0 with
    | true =>
      obtain ⟨tv, svf, htk, hsvf⟩ := (bothObjects_eq_true _ _).mp hb
      subst hsvf
      rw [deepMerge_cons_objobj t key tv svf rest htk, ih _ k hmem.2,
        lookupKey_setKey_ne t key _ k hmem.1]
    | false =>
      rw [deepMerge_cons_other t key sv0 rest hb, ih _ k hmem.2,
        lookupKey_setKey_ne t key sv0 k hmem.1]

/-- Per-key characterization of `mergeDeep` at non-reserved source keys. -/
theorem lookupKey_mergeDeep_char (s : JsonObject) :
    ∀ (t : JsonObject) (k : String) (sv : JsonValue),
    (keysOf s).Nodup → isDangerousKey k = false → lookupKey s k = some sv →
    lookupKey (mergeDeep t s) k = mergeResultAt mergeDeep (lookupKey t k) sv := by
  induction s with
  | nil => intro t k sv _ _ hs; simp [lookupKey] at hs
  | cons p rest ih =>
    intro t k sv hnd hg hs
    obtain ⟨key, sv0⟩ := p
    rw [keysOf_cons, List.nodup_cons] at hnd
    by_cases hk : key = k
    · subst hk
      have hsv : sv0 = sv := by simpa [lookupKey] using hs
      subst hsv
      have hnotmem : key ∉ keysOf rest := hnd.1
      cases hb : bothObjects (lookupKey t key) sv0 with
      | true =>
        obtain ⟨tv, svf, htk, hsvf⟩ := (bothObjects_eq_true _ _).mp hb
        subst hsvf
        rw [mergeDeep_cons_objobj t key tv svf rest hg htk,
          lookupKey_mergeDeep_not_mem rest _ key hnotmem,
          lookupKey_setKey_self, htk, mergeResultAt_objobj]
      | false =>
        rw [mergeDeep_cons_other t key sv0 rest hg hb,
          lookupKey_mergeDeep_not_mem rest _ key hnotmem,
          lookupKey_setKey_self, mergeResultAt_other mergeDeep _ _ hb]
    · have hs2 : lookupKey rest k = some sv := by
        simpa [lookupKey, hk] using hs
      have hkne : k ≠ key := fun hh => hk hh.symm
      cases hdg : isDangerousKey key with
      | true =>
        rw [mergeDeep_cons_dangerous t key sv0 rest hdg]
        exact ih t k sv hnd.2 hg hs2
      | false =>
        cases hb : bothObjects (lookupKey t key) sv0 with
        | true =>
          obtain ⟨tv, svf, htk, hsvf⟩ := (bothObjects_eq_true _ _).mp hb
          subst hsvf
          rw [mergeDeep_cons_objobj t key tv svf rest hdg htk,
            ih _ k sv hnd.2 hg hs2,
            lookupKey_setKey_ne t key _ k hkne]
        | false =>
          rw [mergeDeep_cons_other t key sv0 rest hdg hb,
            ih _ k sv hnd.2 hg hs2,
            lookupKey_setKey_ne t key sv0 k hkne]

/-- Per-key characterization of `deepMerge` at source keys (no reserved-key
guard in this implementation). -/
theorem lookupKey_deepMerge_char (s : JsonObject) :
    ∀ (t : JsonObject) (k : String) (sv : JsonValue),
    (keysOf s).Nodup → lookupKey s k = some sv →
    lookupKey (deepMerge t s) k = mergeResultAt deepMerge (lookupKey t k) sv := by
  induction s with
  | nil => intro t k sv _ hs; simp [lookupKey] at hs
  | cons p rest ih =>
    intro t k sv hnd hs
    obtain ⟨key, sv0⟩ := p
    rw [keysOf_cons, List.nodup_cons] at hnd
    by_cases hk : key = k
    · subst hk
      have hsv : sv0 = sv := by simpa [lookupKey] using hs
      subst hsv
      have hnotmem : key ∉ keysOf rest := hnd.1
      cases hb : bothObjects (lookupKey t key) sv0 with
      | true =>
        obtain ⟨tv, svf, htk, hsvf⟩ := (bothObjects_eq_true _ _).mp hb
        subst hsvf
        rw [deepMerge_cons_objobj t key tv svf rest htk,
          lookupKey_deepMerge_not_mem rest _ key hnotmem,
          lookupKey_setKey_self, htk, mergeResultAt_objobj]
      | false =>
        rw [deepMerge_cons_other t key sv0 rest hb,
          lookupKey_deepMerge_not_mem rest _ key hnotmem,
          lookupKey_setKey_self, mergeResultAt_other deepMerge _ _ hb]
    · have hs2 : lookupKey rest k = some sv := by
        simpa [lookupKey, hk] using hs
      have hkne : k ≠ key := fun hh => hk hh.symm
      cases hb : bothObjects (lookupKey t key) sv0 with
      | true =>
        obtain ⟨tv, svf, htk, hsvf⟩ := (bothObjects_eq_true _ _).mp hb
        subst hsvf
        rw [deepMerge_cons_objobj t key tv svf rest htk,
          ih _ k sv hnd.2 hs2, lookupKey_setKey_ne t key _ k hkne]
      | false =>
        rw [deepMerge_cons_other t key sv0 rest hb,
          ih _ k sv hnd.2 hs2, lookupKey_setKey_ne t key sv0 k hkne]

end MergeCharacterization

/-- C4 counterexample: the claim fails at the reserved keys of `mergeDeep`.
At key `"constructor"` with scalar values on both sides the claim requires
the source value to replace the target value wholesale, but `mergeDeep`
skips the reserved key: the target value survives. -/
theorem mergeDeep_reserved_key_not_replaced :
    lookupKey (mergeDeep [("constructor", .num 1)] [("constructor", .num 2)])
        "constructor" = some (.num 1)
    ∧ lookupKey (mergeDeep [("constructor", .num 1)] [("constructor", .num 2)])
        "constructor" ≠ some (.num 2) := by
  constructor <;> simp [mergeDeep, isDangerousKey, lookupKey, setKey]

/-- C4 (amended): for every key in the merge source — except, for `mergeDeep`,
the reserved keys `__proto__`, `constructor`, `prototype`, which are skipped —
the merge recurses into that key exactly when both the target value and the
source value at that key are non-array, non-null objects, and in every other
case the source value replaces the target value wholesale (no array
concatenation, no element-wise merge); `deepMerge` satisfies this for every
key, having no reserved-key guard.  (Source key sets are duplicate-free, as
JS object keys are.) -/
theorem merge_recursion_characterization :
    (∀ (t s : JsonObject) (k : String) (sv : JsonValue),
      (keysOf s).Nodup → isDangerousKey k = false → lookupKey s k = some sv →
      lookupKey (mergeDeep t s) k = mergeResultAt mergeDeep (lookupKey t k) sv)
    ∧ (∀ (t s : JsonObject) (k : String) (sv : JsonValue),
      (keysOf s).Nodup → lookupKey s k = some sv →
      lookupKey (deepMerge t s) k = mergeResultAt deepMerge (lookupKey t k) sv) :=
  ⟨fun t s k sv hnd hg hs => lookupKey_mergeDeep_char s t k sv hnd hg hs,
   fun t s k sv hnd hs => lookupKey_deepMerge_char s t k sv hnd hs⟩

/-- C4 witness: `mergeDeep` recursing at a key where both sides are objects,
and `deepMerge` replacing wholesale at a key where the target holds an array
and the source a scalar. -/
theorem merge_recursion_characterization_witness :
    lookupKey (mergeDeep [("a", .obj [("x", .num 1)])] [("a", .obj [("y", .num 2)])]) "a"
      = mergeResultAt mergeDeep
          (lookupKey [("a", .obj [("x", .num 1)])] "a") (.obj [("y", .num 2)])
    ∧ lookupKey (deepMerge [("b", .arr [.num 1])] [("b", .num 7)]) "b"
      = mergeResultAt deepMerge (lookupKey [("b", .arr [.num 1])] "b") (.num 7) :=
  ⟨merge_recursion_characterization.1
      [("a", .obj [("x", .num 1)])] [("a", .obj [("y", .num 2)])] "a"
      (.obj [("y", .num 2)]) (by decide) (by decide) rfl,
   merge_recursion_characterization.2
      [("b", .arr [.num 1])] [("b", .num 7)] "b" (.num 7) (by decide) rfl⟩

section Serialization

/-- Lower-case hex digit (for JSON control-character escapes). -/
def hexDigit (n : Nat) : Char :=
  if n < 10 then Char.ofNat (48 + n) else Char.ofNat (87 + n)

/-- JSON escaping of one character (ECMA-262 `QuoteJSONString`). -/
def escapeChar (c : Char) : String :=
  if c = '"' then "\\\""
  else if c = '\\' then "\\\\"
  else if c = '\n' then "\\n"
  else if c = '\r' then "\\r"
  else if c = '\t' then "\\t"
  else if c = Char.ofNat 8 then "\\b"
  else if c = Char.ofNat 12 then "\\f"
  else if c.toNat < 32 then
    "\\u00" ++ String.mk [hexDigit (c.toNat / 16), hexDigit (c.toNat % 16)]
  else String.singleton c

/-- JSON string quoting (ECMA-262 `QuoteJSONString`). -/
def quoteJson (s : String) : String :=
  "\"" ++ String.join (s.toList.map escapeChar) ++ "\""

/-- The indentation at nesting depth `d` for `JSON.stringify`'s gap of two
spaces. -/
def ind (d : Nat) : String := String.mk (List.replicate (2 * d) ' ')

mutual

/-- `JSON.stringify(v, null, 2)` at nesting depth `d` (ECMA-262
`SerializeJSONProperty` with `gap = "  "` and no replacer): objects emit
their own fields in insertion order. -/
def jsonStringify (d : Nat) : JsonValue → String
  | .null => "null"
  | .bool true => "true"
  | .bool false => "false"
  | .num n => toString n
  | .str s => quoteJson s
  | .arr xs =>
    let bodies := jsonStringifyElems (d + 1) xs
    if bodies.isEmpty then "[]"
    else "[\n" ++ ind (d + 1)
      ++ String.intercalate (",\n" ++ ind (d + 1)) bodies
      ++ "\n" ++ ind d ++ "]"
  | .obj fs =>
    let items := (jsonStringifyFields (d + 1) fs).map
      (fun p => quoteJson p.1 ++ ": " ++ p.2)
    if items.isEmpty then "\x7b\x7d"
    else "\x7b\n" ++ ind (d + 1)
      ++ String.intercalate (",\n" ++ ind (d + 1)) items
      ++ "\n" ++ ind d ++ "\x7d"
termination_by v => sizeOf v

/-- Serialization of the elements of an array, in order. -/
def jsonStringifyElems (d : Nat) : List JsonValue → List String
  | [] => []
  | x :: xs => jsonStringify d x :: jsonStringifyElems d xs
termination_by xs => sizeOf xs

/-- Serialization of the fields of an object, in order, keeping each key. -/
def jsonStringifyFields (d : Nat) :
    List (String × JsonValue) → List (String × String)
  | [] => []
  | (k, v) :: rest => (k, jsonStringify d v) :: jsonStringifyFields d rest
termination_by l => sizeOf l

end

end Serialization

section CheckMode

/-- The three observable outcomes of the `--check` branch of
`runMergeVscodeConfig`: output file missing (`CHECK FAILED`, exit 1), output
file differing from the fresh merge output (`CHECK FAILED`, exit 1), or
up to date. -/
inductive CheckOutcome where
  | missingOut
  | drift
  | ok
deriving DecidableEq

/-- The freshly computed settings-merge output text:
`JSON.stringify(deepMerge(baseJson, localJson), null, 2) + "\n"`. -/
def mergedSettingsText (baseJson localJson : JsonObject) : String :=
  jsonStringify 0 (.obj (deepMerge baseJson localJson)) ++ "\n"

/-- The `--check` branch of `runMergeVscodeConfig`: if the output file does
not exist (`persisted = none`) fail; otherwise read its text and fail unless
it is exactly (string-)equal to the freshly computed output. -/
def checkVscodeConfig (persisted : Option String)
    (baseJson localJson : JsonObject) : CheckOutcome :=
  match persisted with
  | none => .missingOut
  | some current =>
    if current = mergedSettingsText baseJson localJson then .ok else .drift

end CheckMode

/-- C5: check mode judges currency by exact string equality against the
freshly serialized merge output — not structural equality: every persisted
text that differs in at least one character (hence also any structurally
equal but differently formatted text) yields Drift Detected, a missing prior
text fails rather than succeeding vacuously, and success happens exactly on
the identical string. -/
theorem checkMode_exact_equality (baseJson localJson : JsonObject) :
    checkVscodeConfig none baseJson localJson = .missingOut
    ∧ (∀ t, t ≠ mergedSettingsText baseJson localJson →
        checkVscodeConfig (some t) baseJson localJson = .drift)
    ∧ (∀ t, checkVscodeConfig (some t) baseJson localJson = .ok ↔
        t = mergedSettingsText baseJson localJson) := by
  refine ⟨rfl, ?_, ?_⟩
  · intro t ht
    simp [checkVscodeConfig, ht]
  · intro t
    by_cases ht : t = mergedSettingsText baseJson localJson <;>
      simp [checkVscodeConfig, ht, CheckOutcome]

/-- C5 witness: with base `{}`, local `{}` the fresh output is the two-byte
object text plus newline; a missing output file fails, and the persisted
empty string (differing from the fresh output) drifts. -/
theorem checkMode_exact_equality_witness :
    checkVscodeConfig none [] [] = .missingOut
    ∧ checkVscodeConfig (some "") [] [] = .drift := by
  have h := checkMode_exact_equality [] []
  refine ⟨h.1, h.2.1 "" ?_⟩
  have hval : mergedSettingsText [] [] = "\x7b\x7d\n" := by
    rw [mergedSettingsText, deepMerge_nil, jsonStringify.eq_def]
    dsimp only []
    rw [jsonStringifyFields.eq_def]
    dsimp only []
    rfl
  rw [hval]
  decide

section StableStringify

mutual

/-- Recursive key collection of `stableStringify`: for arrays, collect from
each element; for objects, push every own key (in order) and collect from its
value; scalars contribute nothing. -/
def collectKeys : JsonValue → List String
  | .arr xs => collectKeysList xs
  | .obj fs => collectKeysFields fs
  | _ => []
termination_by v => sizeOf v

/-- `value.forEach(collect)` of `collectKeys` on an array. -/
def collectKeysList : List JsonValue → List String
  | [] => []
  | x :: xs => collectKeys x ++ collectKeysList xs
termination_by xs => sizeOf xs

/-- The object loop of `collectKeys`: `keys.push(k); collect(v[k])`. -/
def collectKeysFields : List (String × JsonValue) → List String
  | [] => []
  | (k, v) :: rest => k :: (collectKeys v ++ collectKeysFields rest)
termination_by l => sizeOf l

end

/-- `Array.from(new Set(keys)).sort()` of `stableStringify`: the deduplicated
key collection, sorted (string order models the JS default sort). -/
def uniqKeys (v : JsonValue) : List String :=
  List.insertionSort (· ≤ ·) (collectKeys v).dedup

mutual

/-- `JSON.stringify(v, uniq, 2)` at depth `d` (ECMA-262
`SerializeJSONProperty` with `gap = "  "` and the key list `uniq` as the
`PropertyList` array replacer): every object emits the keys of `uniq` that it
has, in `uniq` order — JSON.stringify uses the `PropertyList` order, not the
object's own insertion order, whenever a replacer array is supplied.  Fields
are rendered first and then selected by the replacer, which produces the same
text since JS object keys are unique. -/
def serializeWith (uniq : List String) (d : Nat) : JsonValue → String
  | .null => "null"
  | .bool true => "true"
  | .bool false => "false"
  | .num n => toString n
  | .str s => quoteJson s
  | .arr xs =>
    let bodies := serializeWithElems uniq (d + 1) xs
    if bodies.isEmpty then "[]"
    else "[\n" ++ ind (d + 1)
      ++ String.intercalate (",\n" ++ ind (d + 1)) bodies
      ++ "\n" ++ ind d ++ "]"
  | .obj fs =>
    let rendered := serializeWithFields uniq (d + 1) fs
    let items := uniq.filterMap (fun k =>
      (lookupKey rendered k).map (fun body => quoteJson k ++ ": " ++ body))
    if items.isEmpty then "\x7b\x7d"
    else "\x7b\n" ++ ind (d + 1)
      ++ String.intercalate (",\n" ++ ind (d + 1)) items
      ++ "\n" ++ ind d ++ "\x7d"
termination_by v => sizeOf v

/-- Serialization of array elements under the replacer, in order. -/
def serializeWithElems (uniq : List String) (d : Nat) :
    List JsonValue → List String
  | [] => []
  | x :: xs => serializeWith uniq d x :: serializeWithElems uniq d xs
termination_by xs => sizeOf xs

/-- Serialization of object fields under the replacer, keyed. -/
def serializeWithFields (uniq : List String) (d : Nat) :
    List (String × JsonValue) → List (String × String)
  | [] => []
  | (k, v) :: rest =>
    (k, serializeWith uniq d v) :: serializeWithFields uniq d rest
termination_by l => sizeOf l

end

/-- `stableStringify(value)` from `update-package`: canonical serialization
with the sorted, deduplicated recursive key collection as the replacer. -/
def stableStringify (v : JsonValue) : String :=
  serializeWith (uniqKeys v) 0 v

/-- The structural comparison used (negated) by `findChangedWireit`:
`stableStringify(x) == stableStringify(y)`. -/
def equalJson (x y : JsonValue) : Prop :=
  stableStringify x = stableStringify y

/-- Well-formedness of an embedded JSON value: every object (at every depth)
has duplicate-free keys, as real JS objects do. -/
def wfJson : JsonValue → Bool
  | .arr [] => true
  | .arr (x :: xs) => wfJson x && wfJson (.arr xs)
  | .obj [] => true
  | .obj ((k, v) :: rest) =>
    !(lookupKey rest k).isSome && wfJson v && wfJson (.obj rest)
  | _ => true
termination_by v => sizeOf v

mutual

/-- `PermEq v w`: `w` is obtained from `v` by permuting the fields of `v` or
of any nested object, keeping array element order; scalars must be equal. -/
def PermEq : JsonValue → JsonValue → Prop
  | .null, .null => True
  | .bool a, .bool b => a = b
  | .num a, .num b => a = b
  | .str a, .str b => a = b
  | .arr xs, .arr ys => PermEqList xs ys
  | .obj fs, .obj gs => ∃ gs2, gs.Perm gs2 ∧ PermEqFields fs gs2
  | _, _ => False
termination_by v _ => sizeOf v

/-- Pointwise `PermEq` on array elements (order kept). -/
def PermEqList : List JsonValue → List JsonValue → Prop
  | [], [] => True
  | x :: xs, y :: ys => PermEq x y ∧ PermEqList xs ys
  | _, _ => False
termination_by l _ => sizeOf l

/-- Pointwise `PermEq` on object fields (same keys in the same positions,
values related). -/
def PermEqFields : List (String × JsonValue) → List (String × JsonValue) → Prop
  | [], [] => True
  | (k, v) :: fs, (l, w) :: gs => k = l ∧ PermEq v w ∧ PermEqFields fs gs
  | _, _ => False
termination_by l _ => sizeOf l

end

end StableStringify

section StableStringifyEquations

@[simp] theorem collectKeys_null : collectKeys .null = [] := by
  rw [collectKeys.eq_def]

@[simp] theorem collectKeys_bool (b : Bool) : collectKeys (.bool b) = [] := by
  rw [collectKeys.eq_def]

@[simp] theorem collectKeys_num (n : Int) : collectKeys (.num n) = [] := by
  rw [collectKeys.eq_def]

@[simp] theorem collectKeys_str (s : String) : collectKeys (.str s) = [] := by
  rw [collectKeys.eq_def]

@[simp] theorem collectKeys_arr (xs : List JsonValue) :
    collectKeys (.arr xs) = collectKeysList xs := by
  rw [collectKeys.eq_def]

@[simp] theorem collectKeys_obj (fs : List (String × JsonValue)) :
    collectKeys (.obj fs) = collectKeysFields fs := by
  rw [collectKeys.eq_def]

@[simp] theorem collectKeysList_nil : collectKeysList [] = [] := by
  rw [collectKeysList.eq_def]

@[simp] theorem collectKeysList_cons (x : JsonValue) (xs : List JsonValue) :
    collectKeysList (x :: xs) = collectKeys x ++ collectKeysList xs := by
  rw [collectKeysList.eq_def]

@[simp] theorem collectKeysFields_nil : collectKeysFields [] = [] := by
  rw [collectKeysFields.eq_def]

@[simp] theorem collectKeysFields_cons (k : String) (v : JsonValue)
    (rest : List (String × JsonValue)) :
    collectKeysFields ((k, v) :: rest)
      = k :: (collectKeys v ++ collectKeysFields rest) := by
  rw [collectKeysFields.eq_def]

@[simp] theorem serializeWith_null (uniq : List String) (d : Nat) :
    serializeWith uniq d .null = "null" := by
  rw [serializeWith.eq_def]

@[simp] theorem serializeWith_bool (uniq : List String) (d : Nat) (b : Bool) :
    serializeWith uniq d (.bool b) = (if b then "true" else "false") := by
  cases b <;> rw [serializeWith.eq_def] <;> rfl

@[simp] theorem serializeWith_num (uniq : List String) (d : Nat) (n : Int) :
    serializeWith uniq d (.num n) = toString n := by
  rw [serializeWith.eq_def]

@[simp] theorem serializeWith_str (uniq : List String) (d : Nat) (s : String) :
    serializeWith uniq d (.str s) = quoteJson s := by
  rw [serializeWith.eq_def]

theorem serializeWith_arr (uniq : List String) (d : Nat)
    (xs : List JsonValue) :
    serializeWith uniq d (.arr xs) =
      (if (serializeWithElems uniq (d + 1) xs).isEmpty then "[]"
       else "[\n" ++ ind (d + 1)
         ++ String.intercalate (",\n" ++ ind (d + 1))
             (serializeWithElems uniq (d + 1) xs)
         ++ "\n" ++ ind d ++ "]") := by
  rw [serializeWith.eq_def]

theorem serializeWith_obj (uniq : List String) (d : Nat)
    (fs : List (String × JsonValue)) :
    serializeWith uniq d (.obj fs) =
      (if (uniq.filterMap (fun k =>
          (lookupKey (serializeWithFields uniq (d + 1) fs) k).map
            (fun body => quoteJson k ++ ": " ++ body))).isEmpty then "\x7b\x7d"
       else "\x7b\n" ++ ind (d + 1)
         ++ String.intercalate (",\n" ++ ind (d + 1))
             (uniq.filterMap (fun k =>
               (lookupKey (serializeWithFields uniq (d + 1) fs) k).map
                 (fun body => quoteJson k ++ ": " ++ body)))
         ++ "\n" ++ ind d ++ "\x7d") := by
  rw [serializeWith.eq_def]

@[simp] theorem serializeWithElems_nil (uniq : List String) (d : Nat) :
    serializeWithElems uniq d [] = [] := by
  rw [serializeWithElems.eq_def]

@[simp] theorem serializeWithElems_cons (uniq : List String) (d : Nat)
    (x : JsonValue) (xs : List JsonValue) :
    serializeWithElems uniq d (x :: xs)
      = serializeWith uniq d x :: serializeWithElems uniq d xs := by
  rw [serializeWithElems.eq_def]

@[simp] theorem serializeWithFields_nil (uniq : List String) (d : Nat) :
    serializeWithFields uniq d [] = [] := by
  rw [serializeWithFields.eq_def]

@[simp] theorem serializeWithFields_cons (uniq : List String) (d : Nat)
    (k : String) (v : JsonValue) (rest : List (String × JsonValue)) :
    serializeWithFields uniq d ((k, v) :: rest)
      = (k, serializeWith uniq d v) :: serializeWithFields uniq d rest := by
  rw [serializeWithFields.eq_def]

@[simp] theorem wfJson_null : wfJson .null = true := by rw [wfJson.eq_def]

@[simp] theorem wfJson_bool (b : Bool) : wfJson (.bool b) = true := by
  rw [wfJson.eq_def]

@[simp] theorem wfJson_num (n : Int) : wfJson (.num n) = true := by
  rw [wfJson.eq_def]

@[simp] theorem wfJson_str (s : String) : wfJson (.str s) = true := by
  rw [wfJson.eq_def]

@[simp] theorem wfJson_arr_nil : wfJson (.arr []) = true := by
  rw [wfJson.eq_def]

@[simp] theorem wfJson_arr_cons (x : JsonValue) (xs : List JsonValue) :
    wfJson (.arr (x :: xs)) = (wfJson x && wfJson (.arr xs)) := by
  rw [wfJson.eq_def]

@[simp] theorem wfJson_obj_nil : wfJson (.obj []) = true := by
  rw [wfJson.eq_def]

@[simp] theorem wfJson_obj_cons (k : String) (v : JsonValue)
    (rest : List (String × JsonValue)) :
    wfJson (.obj ((k, v) :: rest))
      = (!(lookupKey rest k).isSome && wfJson v && wfJson (.obj rest)) := by
  rw [wfJson.eq_def]

theorem permEq_null_inv (w : JsonValue) (h : PermEq .null w) : w = .null := by
  cases w <;> first
    | rfl
    | (rw [PermEq.eq_def] at h; exact h.elim)

theorem permEq_bool_inv (a : Bool) (w : JsonValue) (h : PermEq (.bool a) w) :
    w = .bool a := by
  cases w <;> first
    | (rw [PermEq.eq_def] at h; exact h.elim)
    | (rw [PermEq.eq_def] at h; rw [h])

theorem permEq_num_inv (a : Int) (w : JsonValue) (h : PermEq (.num a) w) :
    w = .num a := by
  cases w <;> first
    | (rw [PermEq.eq_def] at h; exact h.elim)
    | (rw [PermEq.eq_def] at h; rw [h])

theorem permEq_str_inv (a : String) (w : JsonValue) (h : PermEq (.str a) w) :
    w = .str a := by
  cases w <;> first
    | (rw [PermEq.eq_def] at h; exact h.elim)
    | (rw [PermEq.eq_def] at h; rw [h])

theorem permEq_arr_inv (xs : List JsonValue) (w : JsonValue)
    (h : PermEq (.arr xs) w) : ∃ ys, w = .arr ys ∧ PermEqList xs ys := by
  cases w <;> first
    | (rw [PermEq.eq_def] at h; exact h.elim)
    | exact ⟨_, rfl, by rw [PermEq.eq_def] at h; exact h⟩

theorem permEq_obj_inv (fs : List (String × JsonValue)) (w : JsonValue)
    (h : PermEq (.obj fs) w) :
    ∃ gs gs2, w = .obj gs ∧ gs.Perm gs2 ∧ PermEqFields fs gs2 := by
  cases w <;> first
    | (rw [PermEq.eq_def] at h; exact h.elim)
    | (obtain ⟨gs2, hp, hf⟩ := by rw [PermEq.eq_def] at h; exact h
       exact ⟨_, gs2, rfl, hp, hf⟩)

@[simp] theorem permEq_arr_arr (xs ys : List JsonValue) :
    PermEq (.arr xs) (.arr ys) = PermEqList xs ys := by
  rw [PermEq.eq_def]

@[simp] theorem permEq_obj_obj (fs gs : List (String × JsonValue)) :
    PermEq (.obj fs) (.obj gs)
      = ∃ gs2, gs.Perm gs2 ∧ PermEqFields fs gs2 := by
  rw [PermEq.eq_def]

@[simp] theorem permEqList_nil : PermEqList [] [] = True := by
  rw [PermEqList.eq_def]

theorem permEqList_nil_inv (ys : List JsonValue) (h : PermEqList [] ys) :
    ys = [] := by
  cases ys with
  | nil => rfl
  | cons y ys => rw [PermEqList.eq_def] at h; exact h.elim

theorem permEqList_cons_inv (x : JsonValue) (xs ys : List JsonValue)
    (h : PermEqList (x :: xs) ys) :
    ∃ y ys2, ys = y :: ys2 ∧ PermEq x y ∧ PermEqList xs ys2 := by
  cases ys with
  | nil => rw [PermEqList.eq_def] at h; exact h.elim
  | cons y ys2 =>
    rw [PermEqList.eq_def] at h
    exact ⟨y, ys2, rfl, h.1, h.2⟩

theorem permEqFields_nil_inv (gs : List (String × JsonValue))
    (h : PermEqFields [] gs) : gs = [] := by
  cases gs with
  | nil => rfl
  | cons g gs2 => rw [PermEqFields.eq_def] at h; exact h.elim

theorem permEqFields_cons_inv (k : String) (v : JsonValue)
    (fs gs : List (String × JsonValue)) (h : PermEqFields ((k, v) :: fs) gs) :
    ∃ w gs2, gs = (k, w) :: gs2 ∧ PermEq v w ∧ PermEqFields fs gs2 := by
  cases gs with
  | nil => rw [PermEqFields.eq_def] at h; exact h.elim
  | cons g gs2 =>
    obtain ⟨l, w⟩ := g
    rw [PermEqFields.eq_def] at h
    obtain ⟨hk, hv, hf⟩ := h
    subst hk
    exact ⟨w, gs2, rfl, hv, hf⟩

end StableStringifyEquations

section CanonicalLemmas

theorem wfJson_arr_mem (xs : List JsonValue) (h : wfJson (.arr xs) = true) :
    ∀ x ∈ xs, wfJson x = true := by
  induction xs with
  | nil => intro x hx; simp at hx
  | cons y ys ih =>
    rw [wfJson_arr_cons, Bool.and_eq_true] at h
    intro x hx
    rcases List.mem_cons.mp hx with h1 | h1
    · subst h1; exact h.1
    · exact ih h.2 x h1

theorem wfJson_obj_nodup (fs : List (String × JsonValue))
    (h : wfJson (.obj fs) = true) : (keysOf fs).Nodup := by
  induction fs with
  | nil => simp
  | cons p rest ih =>
    obtain ⟨k, v⟩ := p
    rw [wfJson_obj_cons, Bool.and_eq_true, Bool.and_eq_true] at h
    have hb : (lookupKey rest k).isSome = false := by simpa using h.1.1
    rw [keysOf_cons, List.nodup_cons]
    refine ⟨?_, ih h.2⟩
    intro hmem
    rw [← lookupKey_isSome_iff, hb] at hmem
    exact absurd hmem (by simp)

theorem wfJson_obj_values (fs : List (String × JsonValue))
    (h : wfJson (.obj fs) = true) : ∀ p ∈ fs, wfJson p.2 = true := by
  induction fs with
  | nil => intro p hp; simp at hp
  | cons q rest ih =>
    obtain ⟨k, v⟩ := q
    rw [wfJson_obj_cons, Bool.and_eq_true, Bool.and_eq_true] at h
    intro p hp
    rcases List.mem_cons.mp hp with h1 | h1
    · subst h1; exact h.1.2
    · exact ih h.2 p h1

theorem mem_collectKeysList (xs : List JsonValue) (k : String) :
    k ∈ collectKeysList xs ↔ ∃ x ∈ xs, k ∈ collectKeys x := by
  induction xs with
  | nil => simp
  | cons y ys ih => simp [ih]

theorem mem_collectKeysFields (fs : List (String × JsonValue)) (k : String) :
    k ∈ collectKeysFields fs ↔ ∃ p ∈ fs, k = p.1 ∨ k ∈ collectKeys p.2 := by
  induction fs with
  | nil => simp
  | cons p rest ih =>
    obtain ⟨k0, v⟩ := p
    simp [ih, or_assoc]

theorem permEqFields_keysOf (fs : List (String × JsonValue)) :
    ∀ gs, PermEqFields fs gs → keysOf fs = keysOf gs := by
  induction fs with
  | nil => intro gs h; rw [permEqFields_nil_inv gs h]
  | cons p rest ih =>
    obtain ⟨k, v⟩ := p
    intro gs h
    obtain ⟨w, gs2, rfl, _, hrest⟩ := permEqFields_cons_inv k v rest gs h
    rw [keysOf_cons, keysOf_cons, ih gs2 hrest]

/-- A value related by `PermEq` has the same recursive key collection, as a
set. -/
theorem collectKeys_mem_congr : ∀ (n : Nat) (v w : JsonValue), sizeOf v < n →
    PermEq v w → ∀ k, (k ∈ collectKeys v ↔ k ∈ collectKeys w) := by
  intro n
  induction n with
  | zero => intro v w hsz; exact absurd hsz (Nat.not_lt_zero _)
  | succ n ih =>
    intro v w hsz hpe k
    cases v with
    | null => rw [permEq_null_inv _ hpe]
    | bool a => rw [permEq_bool_inv a _ hpe]
    | num a => rw [permEq_num_inv a _ hpe]
    | str a => rw [permEq_str_inv a _ hpe]
    | arr xs =>
      obtain ⟨ys, rfl, hl⟩ := permEq_arr_inv xs _ hpe
      rw [collectKeys_arr, collectKeys_arr]
      have aux : ∀ (xs2 ys2 : List JsonValue), sizeOf xs2 < n →
          PermEqList xs2 ys2 →
          (k ∈ collectKeysList xs2 ↔ k ∈ collectKeysList ys2) := by
        intro xs2
        induction xs2 with
        | nil => intro ys2 _ hl2; rw [permEqList_nil_inv ys2 hl2]
        | cons x xs3 ihx =>
          intro ys2 hsz2 hl2
          obtain ⟨y, ys3, rfl, hxy, hrest⟩ := permEqList_cons_inv x xs3 ys2 hl2
          rw [collectKeysList_cons, collectKeysList_cons, List.mem_append,
            List.mem_append]
          have hx : sizeOf x < n := by simp at hsz2; omega
          have hxs3 : sizeOf xs3 < n := by simp at hsz2; omega
          exact or_congr (ih x y hx hxy k) (ihx ys3 hxs3 hrest)
      exact aux xs ys (by simp at hsz; omega) hl
    | obj fs =>
      obtain ⟨gs, gs2, rfl, hperm, hfields⟩ := permEq_obj_inv fs _ hpe
      rw [collectKeys_obj, collectKeys_obj]
      have hmemperm : ∀ k2 : String,
          k2 ∈ collectKeysFields gs ↔ k2 ∈ collectKeysFields gs2 := by
        intro k2
        rw [mem_collectKeysFields, mem_collectKeysFields]
        constructor
        · rintro ⟨p, hp, hor⟩
          exact ⟨p, hperm.mem_iff.mp hp, hor⟩
        · rintro ⟨p, hp, hor⟩
          exact ⟨p, hperm.mem_iff.mpr hp, hor⟩
      have aux : ∀ (fs2 gs3 : List (String × JsonValue)), sizeOf fs2 < n →
          PermEqFields fs2 gs3 →
          (k ∈ collectKeysFields fs2 ↔ k ∈ collectKeysFields gs3) := by
        intro fs2
        induction fs2 with
        | nil => intro gs3 _ hf; rw [permEqFields_nil_inv gs3 hf]
        | cons p fs3 ihf =>
          obtain ⟨k0, v⟩ := p
          intro gs3 hsz2 hf
          obtain ⟨w, gs4, rfl, hvw, hrest⟩ := permEqFields_cons_inv k0 v fs3 gs3 hf
          rw [collectKeysFields_cons, collectKeysFields_cons, List.mem_cons,
            List.mem_cons, List.mem_append, List.mem_append]
          have hv : sizeOf v < n := by simp at hsz2; omega
          have hfs3 : sizeOf fs3 < n := by simp at hsz2; omega
          exact or_congr Iff.rfl
            (or_congr (ih v w hv hvw k) (ihf gs4 hfs3 hrest))
      exact (aux fs gs2 (by simp at hsz; omega) hfields).trans (hmemperm k).symm

/-- Values with the same key collection (as sets) get the same sorted,
deduplicated replacer list. -/
theorem uniqKeys_congr (v w : JsonValue)
    (h : ∀ k, k ∈ collectKeys v ↔ k ∈ collectKeys w) :
    uniqKeys v = uniqKeys w := by
  apply List.eq_of_perm_of_sorted (r := (· ≤ ·))
  · have hmid : (collectKeys v).dedup.Perm (collectKeys w).dedup := by
      rw [List.perm_ext_iff_of_nodup (List.nodup_dedup _) (List.nodup_dedup _)]
      intro k
      rw [List.mem_dedup, List.mem_dedup]
      exact h k
    exact (List.perm_insertionSort _ _).trans
      (hmid.trans (List.perm_insertionSort (· ≤ ·) (collectKeys w).dedup).symm)
  · exact List.sorted_insertionSort _ _
  · exact List.sorted_insertionSort _ _

end CanonicalLemmas

section SerializeCongr

theorem keysOf_serializeWithFields (uniq : List String) (d : Nat)
    (l : List (String × JsonValue)) :
    keysOf (serializeWithFields uniq d l) = keysOf l := by
  induction l with
  | nil => simp
  | cons p rest ih =>
    obtain ⟨k, v⟩ := p
    simp [ih]

theorem serializeWithFields_eq_map (uniq : List String) (d : Nat)
    (l : List (String × JsonValue)) :
    serializeWithFields uniq d l
      = l.map (fun p => (p.1, serializeWith uniq d p.2)) := by
  induction l with
  | nil => simp
  | cons p rest ih =>
    obtain ⟨k, v⟩ := p
    simp [ih]

/-- The canonical serializer is invariant under key permutation at every
nesting depth, for any replacer list, on well-formed values. -/
theorem serializeWith_congr : ∀ (n : Nat) (v w : JsonValue), sizeOf v < n →
    wfJson v = true → PermEq v w →
    ∀ (uniq : List String) (d : Nat),
    serializeWith uniq d v = serializeWith uniq d w := by
  intro n
  induction n with
  | zero => intro v w hsz; exact absurd hsz (Nat.not_lt_zero _)
  | succ n ih =>
    intro v w hsz hwf hpe uniq d
    cases v with
    | null => rw [permEq_null_inv _ hpe]
    | bool a => rw [permEq_bool_inv a _ hpe]
    | num a => rw [permEq_num_inv a _ hpe]
    | str a => rw [permEq_str_inv a _ hpe]
    | arr xs =>
      obtain ⟨ys, rfl, hl⟩ := permEq_arr_inv xs _ hpe
      have aux : ∀ (xs2 ys2 : List JsonValue), sizeOf xs2 < n →
          (∀ x ∈ xs2, wfJson x = true) → PermEqList xs2 ys2 →
          serializeWithElems uniq (d + 1) xs2
            = serializeWithElems uniq (d + 1) ys2 := by
        intro xs2
        induction xs2 with
        | nil => intro ys2 _ _ hl2; rw [permEqList_nil_inv ys2 hl2]
        | cons x xs3 ihx =>
          intro ys2 hsz2 hwf2 hl2
          obtain ⟨y, ys3, rfl, hxy, hrest⟩ := permEqList_cons_inv x xs3 ys2 hl2
          rw [serializeWithElems_cons, serializeWithElems_cons]
          have hx : sizeOf x < n := by simp at hsz2; omega
          have hxs3 : sizeOf xs3 < n := by simp at hsz2; omega
          rw [ih x y hx (hwf2 x (by simp)) hxy uniq (d + 1),
            ihx ys3 hxs3 (fun z hz => hwf2 z (List.mem_cons_of_mem _ hz)) hrest]
      rw [serializeWith_arr, serializeWith_arr,
        aux xs ys (by simp at hsz; omega) (wfJson_arr_mem xs hwf) hl]
    | obj fs =>
      obtain ⟨gs, gs2, rfl, hperm, hfields⟩ := permEq_obj_inv fs _ hpe
      have hnodupf : (keysOf fs).Nodup := wfJson_obj_nodup fs hwf
      have hvals := wfJson_obj_values fs hwf
      have aux : ∀ (fs2 gs3 : List (String × JsonValue)), sizeOf fs2 < n →
          (∀ p ∈ fs2, wfJson p.2 = true) → PermEqFields fs2 gs3 →
          serializeWithFields uniq (d + 1) fs2
            = serializeWithFields uniq (d + 1) gs3 := by
        intro fs2
        induction fs2 with
        | nil => intro gs3 _ _ hf; rw [permEqFields_nil_inv gs3 hf]
        | cons p fs3 ihf =>
          obtain ⟨k0, v⟩ := p
          intro gs3 hsz2 hwf2 hf
          obtain ⟨w2, gs4, rfl, hvw, hrest⟩ :=
            permEqFields_cons_inv k0 v fs3 gs3 hf
          rw [serializeWithFields_cons, serializeWithFields_cons]
          have hv : sizeOf v < n := by simp at hsz2; omega
          have hfs3 : sizeOf fs3 < n := by simp at hsz2; omega
          rw [ih v w2 hv (hwf2 (k0, v) (by simp)) hvw uniq (d + 1),
            ihf gs4 hfs3 (fun q hq => hwf2 q (List.mem_cons_of_mem _ hq)) hrest]
      have hf_eq : serializeWithFields uniq (d + 1) fs
          = serializeWithFields uniq (d + 1) gs2 :=
        aux fs gs2 (by simp at hsz; omega) hvals hfields
      have hkeysgs2 : (keysOf gs2).Nodup := by
        rw [← permEqFields_keysOf fs gs2 hfields]
        exact hnodupf
      have hpermkeys : (keysOf gs).Perm (keysOf gs2) := hperm.map Prod.fst
      have hnodupgs : (keysOf gs).Nodup := hpermkeys.nodup_iff.mpr hkeysgs2
      have hrenperm : (serializeWithFields uniq (d + 1) gs).Perm
          (serializeWithFields uniq (d + 1) gs2) := by
        rw [serializeWithFields_eq_map, serializeWithFields_eq_map]
        exact hperm.map _
      have hnoduprgs : (keysOf (serializeWithFields uniq (d + 1) gs)).Nodup := by
        rw [keysOf_serializeWithFields]
        exact hnodupgs
      have hlookup : ∀ k2, lookupKey (serializeWithFields uniq (d + 1) gs) k2
          = lookupKey (serializeWithFields uniq (d + 1) fs) k2 := by
        intro k2
        rw [lookupKey_perm _ _ hrenperm hnoduprgs k2, hf_eq]
      rw [serializeWith_obj, serializeWith_obj]
      simp only [hlookup]

end SerializeCongr

/-- C3: the canonical-serialization comparison
`stableStringify x = stableStringify y` is reflexive, symmetric, and
insensitive to object key insertion order at every nesting depth: permuting
the keys of any object, at any depth, of a well-formed value leaves the
canonical serialization (the same string) unchanged.  It remains sensitive to
array element order, to value type, and to scalar value, as the closing
concrete inequalities show. -/
theorem stableStringify_canonical :
    (∀ x, equalJson x x)
    ∧ (∀ x y, equalJson x y → equalJson y x)
    ∧ (∀ O O2 : JsonValue, wfJson O = true → PermEq O O2 → equalJson O O2)
    ∧ stableStringify (.arr [.num 1, .num 2])
        ≠ stableStringify (.arr [.num 2, .num 1])
    ∧ stableStringify (.num 1) ≠ stableStringify (.str "1")
    ∧ stableStringify (.num 1) ≠ stableStringify (.num 2) := by
  refine ⟨fun x => rfl, fun x y h => h.symm, ?_, ?_, ?_, ?_⟩
  · intro O O2 hwf hpe
    have hUK : uniqKeys O = uniqKeys O2 :=
      uniqKeys_congr O O2
        (collectKeys_mem_congr (sizeOf O + 1) O O2 (by omega) hpe)
    show serializeWith (uniqKeys O) 0 O = serializeWith (uniqKeys O2) 0 O2
    rw [hUK]
    exact serializeWith_congr (sizeOf O + 1) O O2 (by omega) hwf hpe
      (uniqKeys O2) 0
  · show serializeWith (uniqKeys (.arr [.num 1, .num 2])) 0 (.arr [.num 1, .num 2])
      ≠ serializeWith (uniqKeys (.arr [.num 2, .num 1])) 0 (.arr [.num 2, .num 1])
    rw [serializeWith_arr, serializeWith_arr]
    simp only [serializeWithElems_cons, serializeWithElems_nil,
      serializeWith_num]
    decide
  · show serializeWith (uniqKeys (.num 1)) 0 (.num 1)
      ≠ serializeWith (uniqKeys (.str "1")) 0 (.str "1")
    rw [serializeWith_num, serializeWith_str]
    decide
  · show serializeWith (uniqKeys (.num 1)) 0 (.num 1)
      ≠ serializeWith (uniqKeys (.num 2)) 0 (.num 2)
    rw [serializeWith_num, serializeWith_num]
    decide

/-- C3 witness: a two-key object compares equal to its key-swapped
permutation under the canonical comparison. -/
theorem stableStringify_canonical_witness :
    wfJson (.obj [("a", .num 1), ("b", .num 2)]) = true
    ∧ equalJson (.obj [("a", .num 1), ("b", .num 2)])
        (.obj [("b", .num 2), ("a", .num 1)]) := by
  have hwf : wfJson (.obj [("a", .num 1), ("b", .num 2)]) = true := by
    simp [lookupKey]
  have hfields : PermEqFields [("a", .num 1), ("b", .num 2)]
      [("a", .num 1), ("b", .num 2)] := by
    rw [PermEqFields.eq_def]
    refine ⟨rfl, ?_, ?_⟩
    · rw [PermEq.eq_def]
    · rw [PermEqFields.eq_def]
      refine ⟨rfl, ?_, ?_⟩
      · rw [PermEq.eq_def]
      · rw [PermEqFields.eq_def]
        exact trivial
  have hpe : PermEq (.obj [("a", .num 1), ("b", .num 2)])
      (.obj [("b", .num 2), ("a", .num 1)]) := by
    rw [permEq_obj_obj]
    exact ⟨[("a", .num 1), ("b", .num 2)],
      List.Perm.swap ("a", JsonValue.num 1) ("b", JsonValue.num 2) [], hfields⟩
  exact ⟨hwf, stableStringify_canonical.2.2.1 _ _ hwf hpe⟩

section HeapModel

/-- Heap address of a mutable JS object. -/
abbrev Addr := Nat

/-- A JS runtime value for the mutable-state embedding of `deepMerge`:
scalars and arrays are immutable values, plain (non-array, non-null) objects
are references into the heap. -/
inductive HVal where
  | null
  | bool (b : Bool)
  | num (n : Int)
  | str (s : String)
  | arr (elems : List HVal)
  | ref (a : Addr)

/-- A heap: the field list of each allocated object, indexed by address;
allocation appends a fresh cell at the end. -/
abbrev Heap := List (List (String × HVal))

/-- The source's recursion test `isPlainObject(bv) && isPlainObject(v)` in
the heap model: both values are object references. -/
def refPair : Option HVal → HVal → Option (Addr × Addr)
  | some (.ref ba), .ref va => some (ba, va)
  | _, _ => none

mutual

/-- `deepMerge(base, override)` over an explicit heap: read both objects,
allocate `out = { ...base }` (a fresh cell holding a copy of base's fields,
at address `h.length`), then run the entry loop on `out`.  `fuel` bounds the
recursion depth — parsed JSON is acyclic, so some finite fuel always
suffices; `none` reports exhausted fuel or a dangling address. -/
def deepMergeH : Nat → Heap → Addr → Addr → Option (Heap × Addr)
  | 0, _, _, _ => none
  | fuel + 1, h, base, override =>
    match h[base]?, h[override]? with
    | some bfs, some ofs =>
      match mergeEntriesH fuel (h ++ [bfs]) h.length ofs with
      | some h2 => some (h2, h.length)
      | none => none
    | _, _ => none
termination_by fuel _ _ _ => (fuel, 0)

/-- The `for (const [k, v] of Object.entries(override))` loop of `deepMerge`:
read `bv = out[k]` from the current heap; if both `bv` and `v` are object
references, merge them into a fresh object and write its address at `out[k]`,
otherwise write `v` at `out[k]`. -/
def mergeEntriesH : Nat → Heap → Addr → List (String × HVal) → Option Heap
  | _, h, _, [] => some h
  | fuel, h, out, (k, v) :: rest =>
    match h[out]? with
    | none => none
    | some outFs =>
      match refPair (lookupKey outFs k) v with
      | some (ba, va) =>
        match deepMergeH fuel h ba va with
        | some (h3, m) =>
          match h3[out]? with
          | none => none
          | some outFs2 =>
            mergeEntriesH fuel (h3.set out (setKey outFs2 k (.ref m))) out rest
        | none => none
      | none => mergeEntriesH fuel (h.set out (setKey outFs k v)) out rest
termination_by fuel _ _ l => (fuel, l.length + 1)

end

/-- Joint frame property: a successful `deepMergeH` only allocates fresh
cells and returns a fresh address, leaving every pre-existing cell unchanged;
the entry loop writes only to `out` and to fresh cells. -/
theorem mergeH_frame : ∀ fuel : Nat,
    (∀ (h : Heap) (b o : Addr) (h2 : Heap) (m : Addr),
      deepMergeH fuel h b o = some (h2, m) →
      h.length ≤ h2.length ∧ h.length ≤ m ∧
        ∀ a, a < h.length → h2[a]? = h[a]?)
    ∧ (∀ (l : List (String × HVal)) (h : Heap) (out : Addr) (h2 : Heap),
      mergeEntriesH fuel h out l = some h2 →
      h.length ≤ h2.length ∧
        ∀ a, a < h.length → a ≠ out → h2[a]? = h[a]?) := by
  intro fuel
  induction fuel using Nat.strong_induction_on with
  | _ fuel ih =>
    have hD : ∀ (h : Heap) (b o : Addr) (h2 : Heap) (m : Addr),
        deepMergeH fuel h b o = some (h2, m) →
        h.length ≤ h2.length ∧ h.length ≤ m ∧
          ∀ a, a < h.length → h2[a]? = h[a]? := by
      intro h b o h2 m heq
      cases fuel with
      | zero =>
        rw [deepMergeH.eq_def] at heq
        exact absurd heq (by simp)
      | succ f =>
        rw [deepMergeH.eq_def] at heq
        dsimp only [] at heq
        cases hb : h[b]? with
        | none =>
          rw [hb] at heq
          simp at heq
        | some bfs =>
          cases ho : h[o]? with
          | none =>
            rw [hb, ho] at heq
            simp at heq
          | some ofs =>
            rw [hb, ho] at heq
            dsimp only [] at heq
            cases hme : mergeEntriesH f (h ++ [bfs]) h.length ofs with
            | none =>
              rw [hme] at heq
              simp at heq
            | some h3 =>
              rw [hme] at heq
              dsimp only [] at heq
              have hpair := Option.some.inj heq
              have h32 : h3 = h2 := congrArg Prod.fst hpair
              have hm : h.length = m := congrArg Prod.snd hpair
              obtain ⟨hp1, hp2⟩ := (ih f (by omega)).2 ofs (h ++ [bfs]) h.length h3 hme
              have hlen : (h ++ [bfs]).length = h.length + 1 := by simp
              rw [← h32, ← hm]
              refine ⟨by omega, by omega, ?_⟩
              intro a ha
              rw [hp2 a (by omega) (by omega), List.getElem?_append, if_pos ha]
    have hE : ∀ (l : List (String × HVal)) (h : Heap) (out : Addr) (h2 : Heap),
        mergeEntriesH fuel h out l = some h2 →
        h.length ≤ h2.length ∧
          ∀ a, a < h.length → a ≠ out → h2[a]? = h[a]? := by
      intro l
      induction l with
      | nil =>
        intro h out h2 heq
        rw [mergeEntriesH.eq_def] at heq
        have hh := Option.some.inj heq
        subst hh
        exact ⟨Nat.le_refl _, fun a _ _ => rfl⟩
      | cons p rest ihl =>
        obtain ⟨k, v⟩ := p
        intro h out h2 heq
        rw [mergeEntriesH.eq_def] at heq
        dsimp only [] at heq
        cases hout : h[out]? with
        | none =>
          rw [hout] at heq
          simp at heq
        | some outFs =>
          rw [hout] at heq
          dsimp only [] at heq
          cases hrp : refPair (lookupKey outFs k) v with
          | none =>
            rw [hrp] at heq
            dsimp only [] at heq
            have hp := ihl (h.set out (setKey outFs k v)) out h2 heq
            have hlen : (h.set out (setKey outFs k v)).length = h.length := by
              simp
            refine ⟨by omega, ?_⟩
            intro a ha hne
            rw [hp.2 a (by omega) hne]
            exact List.getElem?_set_ne (fun hh => hne hh.symm)
          | some pr =>
            obtain ⟨ba, va⟩ := pr
            rw [hrp] at heq
            dsimp only [] at heq
            cases hdm : deepMergeH fuel h ba va with
            | none =>
              rw [hdm] at heq
              simp at heq
            | some pr2 =>
              obtain ⟨h3, m⟩ := pr2
              rw [hdm] at heq
              dsimp only [] at heq
              cases hout2 : h3[out]? with
              | none =>
                rw [hout2] at heq
                simp at heq
              | some outFs2 =>
                rw [hout2] at heq
                dsimp only [] at heq
                have hd := hD h ba va h3 m hdm
                have hp := ihl (h3.set out (setKey outFs2 k (.ref m))) out h2 heq
                have hlen : (h3.set out (setKey outFs2 k (.ref m))).length
                    = h3.length := by simp
                refine ⟨by omega, ?_⟩
                intro a ha hne
                rw [hp.2 a (by omega) hne,
                  List.getElem?_set_ne (fun hh => hne hh.symm)]
                exact hd.2.2 a ha
    exact ⟨hD, hE⟩

end HeapModel

/-- C10: the settings-merge `deepMerge` is non-mutating.  In the heap
embedding, a successful run returns a freshly allocated object — the result
address is outside the pre-existing heap — and leaves every pre-existing
heap cell (in particular the base object, the override object, and all their
nested objects, at every depth) with exactly its original fields: the merged
result is built only from new cells. -/
theorem deepMerge_non_mutating (fuel : Nat) (h : Heap) (b o : Addr)
    (h2 : Heap) (m : Addr) (heq : deepMergeH fuel h b o = some (h2, m)) :
    h.length ≤ m ∧ ∀ a, a < h.length → h2[a]? = h[a]? :=
  ⟨((mergeH_frame fuel).1 h b o h2 m heq).2.1,
   ((mergeH_frame fuel).1 h b o h2 m heq).2.2⟩

/-- C10 witness: the spec's settings-merge scenario over the heap.  Cell 0 is
the base `{"s": <cell 1>}` with nested `cell 1 = {"x": 1}`; cell 2 is the
override `{"s": <cell 3>}` with nested `cell 3 = {"x": 2}`.  The merge
allocates fresh cells 4 and 5 and returns address 4, while cells 0 to 3 —
base, override, and both nested objects — keep their original fields. -/
theorem deepMerge_non_mutating_witness :
    4 ≤ 4
    ∧ ∀ a, a < 4 →
      ([[("s", HVal.ref 1)], [("x", HVal.num 1)], [("s", HVal.ref 3)],
        [("x", HVal.num 2)], [("s", HVal.ref 5)], [("x", HVal.num 2)]] : Heap)[a]?
      = ([[("s", HVal.ref 1)], [("x", HVal.num 1)], [("s", HVal.ref 3)],
          [("x", HVal.num 2)]] : Heap)[a]? := by
  have hrun : deepMergeH 2
      [[("s", HVal.ref 1)], [("x", HVal.num 1)], [("s", HVal.ref 3)],
        [("x", HVal.num 2)]] 0 2
      = some ([[("s", HVal.ref 1)], [("x", HVal.num 1)], [("s", HVal.ref 3)],
          [("x", HVal.num 2)], [("s", HVal.ref 5)], [("x", HVal.num 2)]], 4) := by
    simp [deepMergeH, mergeEntriesH, refPair, lookupKey, setKey]
  exact deepMerge_non_mutating 2 _ 0 2 _ 4 hrun

end Nanny
